import Mathlib

/-!
LiteX CSR accessors (`include/linux/litex.h`).

A shallow embedding of the subregister geometry macros, the two fenced
primitive accessors, the composite register accessors built on them and the
fixed-width / runtime-width wrappers, followed by the properties proved of
them.

Conventions of the embedding:

* C unsigned types are `Nat` reduced modulo `2 ^ w` wherever the C code
  converts or may wrap (`u32`, `u64`, `ulong`, `u8`, `u16`).
* `void __iomem *` addresses are byte addresses in `Nat`.
* The header only issues `ulong` loads and stores; the device behind the
  addresses is the `Bus` state: one cell per address, a `latch` describing
  what a cell retains of a word stored to it, and the program-order trace
  of barriers, loads and stores.
-/

namespace Litex

/-! ## Build-time configuration -/

/-- The values of `CONFIG_LITEX_SUBREG_SIZE` accepted by the `#if` at the top
of the header; every other value stops the build with `#error`. -/
inductive SubregSize where
  | one
  | four
deriving DecidableEq, Repr

/-- Build configuration: `CONFIG_LITEX_SUBREG_SIZE` and `CONFIG_64BIT`. -/
structure Config where
  CONFIG_LITEX_SUBREG_SIZE : SubregSize
  CONFIG_64BIT : Bool
deriving DecidableEq, Repr

/-- The macro `LITEX_SUBREG_SIZE`, defined as `CONFIG_LITEX_SUBREG_SIZE` (bytes). -/
def LITEX_SUBREG_SIZE (c : Config) : Nat :=
  match c.CONFIG_LITEX_SUBREG_SIZE with
  | .one => 1
  | .four => 4

/-- The macro `LITEX_SUBREG_ALIGN`: 8 under `CONFIG_64BIT`, 4 otherwise. -/
def LITEX_SUBREG_ALIGN (c : Config) : Nat :=
  if c.CONFIG_64BIT then 8 else 4

/-- The macro `LITEX_SUBREG_SIZE_BIT`, defined as `(LITEX_SUBREG_SIZE * 8)`. -/
def LITEX_SUBREG_SIZE_BIT (c : Config) : Nat :=
  LITEX_SUBREG_SIZE c * 8

/-- Width in bits of `ulong` (`unsigned long`): 64 under `CONFIG_64BIT`,
32 otherwise. -/
def BITS_PER_LONG (c : Config) : Nat :=
  if c.CONFIG_64BIT then 64 else 32

/-! ## C integer conversions -/

/-- Conversion to `u8`. -/
def u8 (x : Nat) : Nat := x % 2 ^ 8

/-- Conversion to `u16`. -/
def u16 (x : Nat) : Nat := x % 2 ^ 16

/-- Conversion to `u32`. -/
def u32 (x : Nat) : Nat := x % 2 ^ 32

/-- Conversion to `u64`. -/
def u64 (x : Nat) : Nat := x % 2 ^ 64

/-- Conversion to `ulong`. -/
def ulong (c : Config) (x : Nat) : Nat := x % 2 ^ BITS_PER_LONG c

/-- Subtraction on `u32`, wrapping modulo `2 ^ 32`: the difference when it
is not negative, `2 ^ 32` more than the difference otherwise. -/
def u32_sub (a b : Nat) : Nat :=
  if u32 b ≤ u32 a then u32 a - u32 b else 2 ^ 32 - (u32 b - u32 a)

/-! ## Device state -/

/-- One entry of the program-order trace. -/
inductive Event where
  /-- the barrier `__io_br()` -/
  | io_br
  /-- the barrier `__io_ar()` -/
  | io_ar
  /-- a `ulong` load from an address -/
  | load (addr : Nat)
  /-- a `ulong` store of a value to an address -/
  | store (addr : Nat) (value : Nat)
deriving DecidableEq, Repr

/-- The device behind the `__iomem` addresses. `mem a` is what the cell at
address `a` currently holds, `latch x` is what a cell retains when the word
`x` is stored to it, `trace` is every barrier and access so far, oldest
first. -/
structure Bus where
  mem : Nat → Nat
  latch : Nat → Nat
  trace : List Event

/-- Append events to the trace. -/
def Bus.log (s : Bus) (es : List Event) : Bus :=
  { s with trace := s.trace ++ es }

/-! ## Geometry macros -/

/-- The macro `_litex_num_subregs(reg_size)`, being
`(((reg_size) - 1) / LITEX_SUBREG_SIZE + 1)`, expanded at `u32`, the type of
`reg_size` in `_litex_rd_reg` and `_litex_wr_reg`: the subtraction and the
addition wrap modulo `2 ^ 32`. -/
def _litex_num_subregs (c : Config) (reg_size : Nat) : Nat :=
  u32 (u32_sub reg_size 1 / LITEX_SUBREG_SIZE c + 1)

/-- The macro `_next_reg_off(off, size)`, being
`((off) + _litex_num_subregs(size) * LITEX_SUBREG_ALIGN)`, expanded at `u32`
like `_litex_num_subregs`: with `size` a `u32`, the type of every register
size in the header, the count is a `u32`, its product with the `int`
constant `LITEX_SUBREG_ALIGN` is taken in `u32`, and so is the sum with an
`off` of type `u32` or `int`. The product and the sum wrap modulo `2 ^ 32`. -/
def _next_reg_off (c : Config) (off size : Nat) : Nat :=
  u32 (off + u32 (_litex_num_subregs c size * LITEX_SUBREG_ALIGN c))

/-- Whether an integer is a value of the C type `int` (32 bits, two's
complement). -/
def is_int (x : Int) : Bool :=
  decide (-(2 : Int) ^ 31 ≤ x) && decide (x < (2 : Int) ^ 31)

/-- The macro `_next_reg_off(off, size)` expanded at `int`, the type of the
plain integer constants a register map passes: `(size) - 1`, the division by
`LITEX_SUBREG_SIZE` (rounding toward zero), the addition of 1, the product
with `LITEX_SUBREG_ALIGN` and the sum with `off` are `int` operations.
Signed overflow has no defined result in C: the value is `none` unless the
operands and every intermediate result are values of `int`. -/
def _next_reg_off_int (c : Config) (off size : Int) : Option Int :=
  let d := size - 1
  let n := Int.tdiv d (LITEX_SUBREG_SIZE c) + 1
  let m := n * (LITEX_SUBREG_ALIGN c)
  let r := off + m
  if is_int off && is_int size && is_int d && is_int n && is_int m && is_int r then
    some r
  else none

/-! ## Primitive accessors -/

/-- The primitive read `_rd_ptr_w_barrier(addr)`: `__io_br()`, a `ulong` load, `__io_ar()`. -/
def _rd_ptr_w_barrier (c : Config) (s : Bus) (addr : Nat) : Nat × Bus :=
  let s1 := s.log [Event.io_br]
  let val := ulong c (s1.mem addr)
  let s2 := s1.log [Event.load addr]
  let s3 := s2.log [Event.io_ar]
  (val, s3)

/-- The primitive write `_wr_ptr_w_barrier(addr, value)`: `__io_br()`, a `ulong` store,
`__io_ar()`. The argument is converted to the parameter type `ulong`. -/
def _wr_ptr_w_barrier (c : Config) (s : Bus) (addr : Nat) (value : Nat) : Bus :=
  let value := ulong c value
  let s1 := s.log [Event.io_br]
  let s2 : Bus :=
    { s1 with mem := Function.update s1.mem addr (s1.latch value)
              trace := s1.trace ++ [Event.store addr value] }
  s2.log [Event.io_ar]

/-! ## Composite accessors -/

/-- Address of subregister `i`: `a + i * LITEX_SUBREG_ALIGN`, the product
taken in `u32` (the type of `i`). -/
def subreg_addr (c : Config) (a i : Nat) : Nat :=
  a + u32 (i * LITEX_SUBREG_ALIGN c)

/-- Body of the `for` loop of `_litex_rd_reg` at index `i`. -/
def _litex_rd_reg.body (c : Config) (a : Nat) (p : Nat × Bus) (i : Nat) : Nat × Bus :=
  let r := u64 (p.1 <<< LITEX_SUBREG_SIZE_BIT c)
  let x := _rd_ptr_w_barrier c p.2 (subreg_addr c a i)
  (r ||| x.1, x.2)

/-- The composite read `_litex_rd_reg(a, reg_size)`: the first subregister is read before the
loop, then `for (i = 1; i < _litex_num_subregs(reg_size); i++)` shifts the
`u64` accumulator and ORs in the next subregister. The loop index never
wraps, the bound being below `2 ^ 32`. -/
def _litex_rd_reg (c : Config) (s : Bus) (a reg_size : Nat) : Nat × Bus :=
  let r := _rd_ptr_w_barrier c s a
  (List.range' 1 (_litex_num_subregs c reg_size - 1)).foldl (_litex_rd_reg.body c a) r

/-- Shift amount of iteration `i` of `_litex_wr_reg`:
`LITEX_SUBREG_SIZE_BIT * (ns - 1 - i)`, computed in `u32`. -/
def _litex_wr_reg.shift (c : Config) (ns i : Nat) : Nat :=
  u32 (LITEX_SUBREG_SIZE_BIT c * u32_sub (u32_sub ns 1) i)

/-- Body of the `for` loop of `_litex_wr_reg` at index `i`. In C the shift of
the `u64` is defined for amounts below 64 only. -/
def _litex_wr_reg.body (c : Config) (a ns v : Nat) (s : Bus) (i : Nat) : Bus :=
  _wr_ptr_w_barrier c s (subreg_addr c a i) (u64 v >>> _litex_wr_reg.shift c ns i)

/-- The composite write `_litex_wr_reg(a, reg_size, v)`: `ns = _litex_num_subregs(reg_size)`, then
`for (i = 0; i < ns; i++)` one fenced store per subregister. -/
def _litex_wr_reg (c : Config) (s : Bus) (a reg_size v : Nat) : Bus :=
  let ns := _litex_num_subregs c reg_size
  (List.range ns).foldl (_litex_wr_reg.body c a ns v) s

/-- The loop of `_litex_wr_reg` over the indices still to run, with the
condition C puts on `v >> n` for a `u64` made explicit: an iteration whose
shift amount is 64 or more has no defined result (`none`), any other runs the
loop body. -/
def _litex_wr_reg.checked_loop (c : Config) (a ns v : Nat) : List Nat → Bus → Option Bus
  | [], s => some s
  | i :: is, s =>
    if _litex_wr_reg.shift c ns i < 64 then
      _litex_wr_reg.checked_loop c a ns v is (_litex_wr_reg.body c a ns v s i)
    else none

/-- The function `_litex_wr_reg(a, reg_size, v)` with every shift checked:
`ns = _litex_num_subregs(reg_size)`, then `for (i = 0; i < ns; i++)` as in
`_litex_wr_reg`, `none` as soon as a shift is out of range. -/
def _litex_wr_reg.checked (c : Config) (s : Bus) (a reg_size v : Nat) : Option Bus :=
  let ns := _litex_num_subregs c reg_size
  _litex_wr_reg.checked_loop c a ns v (List.range ns) s

/-! ## Fixed-width and runtime-width wrappers -/

/-- The wrapper `u8 litex_reg_readb(a)`: `_litex_rd_reg(a, sizeof(u8))` converted to the
return type. -/
def litex_reg_readb (c : Config) (s : Bus) (a : Nat) : Nat × Bus :=
  let r := _litex_rd_reg c s a 1
  (u8 r.1, r.2)

/-- The wrapper `u16 litex_reg_readw(a)`. -/
def litex_reg_readw (c : Config) (s : Bus) (a : Nat) : Nat × Bus :=
  let r := _litex_rd_reg c s a 2
  (u16 r.1, r.2)

/-- The wrapper `u32 litex_reg_readl(a)`. -/
def litex_reg_readl (c : Config) (s : Bus) (a : Nat) : Nat × Bus :=
  let r := _litex_rd_reg c s a 4
  (u32 r.1, r.2)

/-- The wrapper `u64 litex_reg_readq(a)`. -/
def litex_reg_readq (c : Config) (s : Bus) (a : Nat) : Nat × Bus :=
  let r := _litex_rd_reg c s a 8
  (u64 r.1, r.2)

/-- The wrapper `litex_reg_writeb(a, u8 v)`: the argument is converted to `u8`. -/
def litex_reg_writeb (c : Config) (s : Bus) (a v : Nat) : Bus :=
  _litex_wr_reg c s a 1 (u8 v)

/-- The wrapper `litex_reg_writew(a, u16 v)`. -/
def litex_reg_writew (c : Config) (s : Bus) (a v : Nat) : Bus :=
  _litex_wr_reg c s a 2 (u16 v)

/-- The wrapper `litex_reg_writel(a, u32 v)`. -/
def litex_reg_writel (c : Config) (s : Bus) (a v : Nat) : Bus :=
  _litex_wr_reg c s a 4 (u32 v)

/-- The wrapper `litex_reg_writeq(a, u64 v)`. -/
def litex_reg_writeq (c : Config) (s : Bus) (a v : Nat) : Bus :=
  _litex_wr_reg c s a 8 (u64 v)

/-- The wrapper `litex_set_reg(reg, u32 reg_size, ulong val)`: the value is a `ulong`. -/
def litex_set_reg (c : Config) (s : Bus) (reg reg_size val : Nat) : Bus :=
  _litex_wr_reg c s reg reg_size (ulong c val)

/-- The wrapper `ulong litex_get_reg(reg, u32 reg_size)`: the result is converted to `ulong`. -/
def litex_get_reg (c : Config) (s : Bus) (reg reg_size : Nat) : Nat × Bus :=
  let r := _litex_rd_reg c s reg reg_size
  (ulong c r.1, r.2)

/-! ## Stores used in the statements -/

/-- A store whose cells keep the whole word written to them and all hold
`0` initially. -/
def ramBus : Bus :=
  { mem := fun _ => 0, latch := fun x => x, trace := [] }

/-- The addresses of the loads and stores of a trace, in order. -/
def accesses : List Event → List Nat
  | [] => []
  | Event.load a :: es => a :: accesses es
  | Event.store a _ :: es => a :: accesses es
  | _ :: es => accesses es

/-- The stores of a trace as (address, value) pairs, in order. -/
def stores : List Event → List (Nat × Nat)
  | [] => []
  | Event.store a v :: es => (a, v) :: stores es
  | _ :: es => stores es

/-- A store whose cells retain only the low `LITEX_SUBREG_SIZE` bytes of each
word written to them and all hold `0` initially. -/
def csrBus (c : Config) : Bus :=
  { mem := fun _ => 0, latch := fun x => x % 2 ^ (8 * LITEX_SUBREG_SIZE c), trace := [] }

/-! ## Barriers in a trace -/

/-- Whether an event is a barrier. -/
def isBarrier : Event → Bool
  | Event.io_br => true
  | Event.io_ar => true
  | _ => false

/-- Whether an event is a load or a store. -/
def isAccess : Event → Bool
  | Event.load _ => true
  | Event.store _ _ => true
  | _ => false

/-- Every load or store of the list has a barrier immediately before it and
immediately after it, `prev` being the event just before the list (if any). -/
def fencedFrom (prev : Option Event) : List Event → Bool
  | [] => true
  | e :: es =>
    (!isAccess e || (prev.any isBarrier && es.head?.any isBarrier)) && fencedFrom (some e) es

/-- Every load or store of the trace has a barrier immediately before it and
immediately after it, within the trace. -/
def fenced (es : List Event) : Bool :=
  fencedFrom none es

/-- The events of the primitive reads of subregisters `is`, in order. -/
def rd_events (c : Config) (a : Nat) : List Nat → List Event
  | [] => []
  | i :: is =>
    Event.io_br :: Event.load (subreg_addr c a i) :: Event.io_ar :: rd_events c a is

/-- The events of the primitive writes of iterations `is` of `_litex_wr_reg`,
in order. -/
def wr_events (c : Config) (a ns v : Nat) : List Nat → List Event
  | [] => []
  | i :: is =>
    Event.io_br
      :: Event.store (subreg_addr c a i) (ulong c (u64 v >>> _litex_wr_reg.shift c ns i))
      :: Event.io_ar :: wr_events c a ns v is

/-! ## The read algorithm as specified -/

/-- The read algorithm in the words of the specification: with
`N = subregister_count(byte_width)` and `result = 0`, for `i = 0 .. N-1` in
ascending order `result = (result << SW*8) | read_subregister(base + i*SA)`, the
result being a 64-bit value and the address `base + i*SA` the mathematical
one. `read_subregister` is `_rd_ptr_w_barrier` and `subregister_count` is
`_litex_num_subregs`. -/
def spec_read_register (c : Config) (s : Bus) (base byte_width : Nat) : Nat × Bus :=
  (List.range (_litex_num_subregs c byte_width)).foldl
    (fun (p : Nat × Bus) i =>
      let x := _rd_ptr_w_barrier c p.2 (base + i * LITEX_SUBREG_ALIGN c)
      (u64 (p.1 <<< (LITEX_SUBREG_SIZE c * 8)) ||| x.1, x.2))
    (0, s)

end Litex

namespace Litex

/-! ## Basic facts about the embedding -/

theorem LITEX_SUBREG_SIZE_cases (c : Config) :
    LITEX_SUBREG_SIZE c = 1 ∨ LITEX_SUBREG_SIZE c = 4 := by
  obtain ⟨sw, b⟩ := c
  cases sw <;> simp [LITEX_SUBREG_SIZE]

theorem LITEX_SUBREG_ALIGN_cases (c : Config) :
    LITEX_SUBREG_ALIGN c = 4 ∨ LITEX_SUBREG_ALIGN c = 8 := by
  obtain ⟨sw, b⟩ := c
  cases b <;> simp [LITEX_SUBREG_ALIGN]

theorem BITS_PER_LONG_eq (c : Config) : BITS_PER_LONG c = 8 * LITEX_SUBREG_ALIGN c := by
  obtain ⟨sw, b⟩ := c
  cases b <;> simp [LITEX_SUBREG_ALIGN, BITS_PER_LONG]

theorem u32_sub_eq (a b : Nat) (hb : b ≤ a) (ha : a < 2 ^ 32) : u32_sub a b = a - b := by
  have h1 : u32 a = a := Nat.mod_eq_of_lt ha
  have h2 : u32 b = b := Nat.mod_eq_of_lt (by omega)
  unfold u32_sub
  rw [h1, h2, if_pos hb]

theorem u32_sub_one (n : Nat) (h1 : 1 ≤ n) (h2 : n < 2 ^ 32) : u32_sub n 1 = n - 1 :=
  u32_sub_eq n 1 h1 h2

theorem num_subregs_eq (c : Config) (n : Nat) (h1 : 1 ≤ n) (h2 : n < 2 ^ 32) :
    _litex_num_subregs c n = (n - 1) / LITEX_SUBREG_SIZE c + 1 := by
  unfold _litex_num_subregs
  rw [u32_sub_one n h1 h2]
  unfold u32
  apply Nat.mod_eq_of_lt
  have : (n - 1) / LITEX_SUBREG_SIZE c ≤ n - 1 := Nat.div_le_self _ _
  omega

theorem ceil_div_eq (n k : Nat) (h1 : 1 ≤ n) (hk : 0 < k) :
    ⌈(n : ℚ) / (k : ℚ)⌉₊ = (n - 1) / k + 1 := by
  have hk' : (0 : ℚ) < (k : ℚ) := by exact_mod_cast hk
  rw [Nat.ceil_eq_iff (Nat.succ_ne_zero _)]
  have hdm := Nat.div_add_mod (n - 1) k
  have hml := Nat.mod_lt (n - 1) hk
  constructor
  · rw [lt_div_iff₀ hk']
    have : ((n - 1) / k) * k < n := by
      have := Nat.mul_comm ((n - 1) / k) k
      omega
    have h : ((((n - 1) / k) * k : ℕ) : ℚ) < (n : ℚ) := by exact_mod_cast this
    simpa using h
  · rw [div_le_iff₀ hk']
    have : n ≤ ((n - 1) / k + 1) * k := by
      have := Nat.mul_comm ((n - 1) / k) k
      rw [Nat.add_mul]
      omega
    exact_mod_cast this

/-- C2. For both subregister sizes and every 32-bit unsigned `byte_width ≥ 1`,
`_litex_num_subregs(byte_width)` is `ceil(byte_width / SW)`, is at least 1,
and its `u32` arithmetic does not wrap; for widths 1, 2, 4, 8 it is 1, 2, 4, 8
when `SW = 1` and 1, 1, 1, 2 when `SW = 4`. -/
theorem C2_num_subregs (c : Config) (byte_width : Nat)
    (h1 : 1 ≤ byte_width) (h2 : byte_width < 2 ^ 32) :
    _litex_num_subregs c byte_width = ⌈(byte_width : ℚ) / (LITEX_SUBREG_SIZE c : ℚ)⌉₊ ∧
    1 ≤ _litex_num_subregs c byte_width ∧
    u32_sub byte_width 1 = byte_width - 1 ∧
    (byte_width - 1) / LITEX_SUBREG_SIZE c + 1 < 2 ^ 32 ∧
    (∀ b : Bool, List.map (_litex_num_subregs ⟨SubregSize.one, b⟩) [1, 2, 4, 8] = [1, 2, 4, 8]) ∧
    (∀ b : Bool, List.map (_litex_num_subregs ⟨SubregSize.four, b⟩) [1, 2, 4, 8] = [1, 1, 1, 2]) := by
  have hpos : 0 < LITEX_SUBREG_SIZE c := by
    rcases LITEX_SUBREG_SIZE_cases c with h | h <;> omega
  refine ⟨?_, ?_, u32_sub_one byte_width h1 h2, ?_, ?_, ?_⟩
  · rw [num_subregs_eq c byte_width h1 h2, ceil_div_eq byte_width _ h1 hpos]
  · rw [num_subregs_eq c byte_width h1 h2]
    exact Nat.le_add_left 1 _
  · have : (byte_width - 1) / LITEX_SUBREG_SIZE c ≤ byte_width - 1 := Nat.div_le_self _ _
    omega
  · intro b
    cases b <;> decide
  · intro b
    cases b <;> decide

/-- C2 at `SW = 4`, width 6: two subregisters. -/
theorem C2_num_subregs_witness :
    _litex_num_subregs ⟨SubregSize.four, false⟩ 6 = ⌈((6 : Nat) : ℚ) / (LITEX_SUBREG_SIZE ⟨SubregSize.four, false⟩ : ℚ)⌉₊ ∧
    _litex_num_subregs ⟨SubregSize.four, false⟩ 6 = 2 :=
  ⟨(C2_num_subregs ⟨SubregSize.four, false⟩ 6 (by decide) (by decide)).1, by decide⟩

/-! ## The primitive accessors and the loops, step by step -/

@[simp]
theorem rd_ptr_val (c : Config) (s : Bus) (a : Nat) :
    (_rd_ptr_w_barrier c s a).1 = ulong c (s.mem a) := rfl

@[simp]
theorem rd_ptr_mem (c : Config) (s : Bus) (a : Nat) :
    (_rd_ptr_w_barrier c s a).2.mem = s.mem := rfl

@[simp]
theorem rd_ptr_latch (c : Config) (s : Bus) (a : Nat) :
    (_rd_ptr_w_barrier c s a).2.latch = s.latch := rfl

@[simp]
theorem rd_ptr_trace (c : Config) (s : Bus) (a : Nat) :
    (_rd_ptr_w_barrier c s a).2.trace
      = s.trace ++ [Event.io_br, Event.load a, Event.io_ar] := by
  simp [_rd_ptr_w_barrier, Bus.log]

@[simp]
theorem wr_ptr_mem (c : Config) (s : Bus) (a v : Nat) :
    (_wr_ptr_w_barrier c s a v).mem = Function.update s.mem a (s.latch (ulong c v)) := rfl

@[simp]
theorem wr_ptr_latch (c : Config) (s : Bus) (a v : Nat) :
    (_wr_ptr_w_barrier c s a v).latch = s.latch := rfl

@[simp]
theorem wr_ptr_trace (c : Config) (s : Bus) (a v : Nat) :
    (_wr_ptr_w_barrier c s a v).trace
      = s.trace ++ [Event.io_br, Event.store a (ulong c v), Event.io_ar] := by
  simp [_wr_ptr_w_barrier, Bus.log]

theorem ulong_lt (c : Config) (x : Nat) : ulong c x < 2 ^ BITS_PER_LONG c :=
  Nat.mod_lt _ (Nat.two_pow_pos _)

theorem ulong_lt_u64 (c : Config) (x : Nat) : ulong c x < 2 ^ 64 := by
  have h := ulong_lt c x
  have : 2 ^ BITS_PER_LONG c ≤ 2 ^ 64 := by
    apply Nat.pow_le_pow_right (by decide)
    obtain ⟨sw, b⟩ := c
    cases b <;> simp [BITS_PER_LONG]
  omega

/-- The value computed by the read loop depends on the cells only. -/
theorem rd_fold_val (c : Config) (a : Nat) (l : List Nat) (p : Nat × Bus) :
    (l.foldl (_litex_rd_reg.body c a) p).1
      = l.foldl (fun r i => u64 (r <<< LITEX_SUBREG_SIZE_BIT c)
          ||| ulong c (p.2.mem (subreg_addr c a i))) p.1 ∧
    (l.foldl (_litex_rd_reg.body c a) p).2.mem = p.2.mem ∧
    (l.foldl (_litex_rd_reg.body c a) p).2.latch = p.2.latch := by
  induction l generalizing p with
  | nil => simp
  | cons i l ih =>
    simp only [List.foldl_cons]
    obtain ⟨h1, h2, h3⟩ := ih (_litex_rd_reg.body c a p i)
    refine ⟨?_, ?_, ?_⟩
    · rw [h1]; rfl
    · rw [h2]; rfl
    · rw [h3]; rfl

theorem rd_reg_mem (c : Config) (s : Bus) (a w : Nat) :
    (_litex_rd_reg c s a w).2.mem = s.mem := by
  unfold _litex_rd_reg
  exact (rd_fold_val c a _ _).2.1

theorem rd_reg_latch (c : Config) (s : Bus) (a w : Nat) :
    (_litex_rd_reg c s a w).2.latch = s.latch := by
  unfold _litex_rd_reg
  exact (rd_fold_val c a _ _).2.2

/-- The result of `_litex_rd_reg` as a function of the cells. -/
theorem rd_reg_val (c : Config) (s : Bus) (a w : Nat) :
    (_litex_rd_reg c s a w).1
      = (List.range' 1 (_litex_num_subregs c w - 1)).foldl
          (fun r i => u64 (r <<< LITEX_SUBREG_SIZE_BIT c)
            ||| ulong c (s.mem (subreg_addr c a i))) (ulong c (s.mem a)) := by
  unfold _litex_rd_reg
  exact (rd_fold_val c a _ _).1

theorem rd_fold_lt (c : Config) (m : Nat → Nat) (a : Nat) (l : List Nat) (r : Nat)
    (hr : r < 2 ^ 64) :
    l.foldl (fun r i => u64 (r <<< LITEX_SUBREG_SIZE_BIT c)
      ||| ulong c (m (subreg_addr c a i))) r < 2 ^ 64 := by
  induction l generalizing r with
  | nil => simpa using hr
  | cons i l ih =>
    simp only [List.foldl_cons]
    apply ih
    exact Nat.or_lt_two_pow (Nat.mod_lt _ (Nat.two_pow_pos _)) (ulong_lt_u64 c _)

/-- The result of `_litex_rd_reg` fits its return type `u64`. -/
theorem rd_reg_lt (c : Config) (s : Bus) (a w : Nat) :
    (_litex_rd_reg c s a w).1 < 2 ^ 64 := by
  rw [rd_reg_val]
  exact rd_fold_lt c s.mem a _ _ (ulong_lt_u64 c _)

/-- Two stores with the same cells give the same read result. -/
theorem rd_reg_val_congr (c : Config) (s t : Bus) (a w : Nat) (h : s.mem = t.mem) :
    (_litex_rd_reg c s a w).1 = (_litex_rd_reg c t a w).1 := by
  rw [rd_reg_val, rd_reg_val, h]

/-- C9. For every store state, base and byte width, `_litex_rd_reg` leaves
the backing store (its cells and what they retain) unchanged, and a second
call right after the first returns the same value. -/
theorem C9_read_purity (c : Config) (s : Bus) (base byte_width : Nat) :
    (_litex_rd_reg c s base byte_width).2.mem = s.mem ∧
    (_litex_rd_reg c s base byte_width).2.latch = s.latch ∧
    (_litex_rd_reg c (_litex_rd_reg c s base byte_width).2 base byte_width).1
      = (_litex_rd_reg c s base byte_width).1 :=
  ⟨rd_reg_mem c s base byte_width, rd_reg_latch c s base byte_width,
    rd_reg_val_congr c _ _ base byte_width (rd_reg_mem c s base byte_width)⟩

/-! ## Width of the primitive read -/

/-- C10, as stated, fails. With `SW = 1` on a 32-bit platform, on a store that
keeps what is written, after `_litex_wr_reg(0, 2, 0x1234)` the primitive read
of the subregister at address 4 returns `0x1234`, which is not below
`2 ^ (8 * SW) = 256`. -/
theorem C10_counterexample :
    (_rd_ptr_w_barrier ⟨SubregSize.one, false⟩
        (_litex_wr_reg ⟨SubregSize.one, false⟩ ramBus 0 2 0x1234) 4).1 = 0x1234 ∧
    ¬ ((_rd_ptr_w_barrier ⟨SubregSize.one, false⟩
        (_litex_wr_reg ⟨SubregSize.one, false⟩ ramBus 0 2 0x1234) 4).1
          < 2 ^ (8 * LITEX_SUBREG_SIZE ⟨SubregSize.one, false⟩)) := by
  decide

/-- C10, amended. For every configuration, address and store state,
`_rd_ptr_w_barrier` returns the cell read reduced to an `unsigned long`, a
value below `2 ^ (8 * SA)`; it is below `2 ^ (8 * SW)` when `SW = 4` on a
32-bit platform, and in every configuration when the cell read holds a value
below `2 ^ (8 * SW)`, which is then returned as it is. -/
theorem C10_primitive_read_width (c : Config) (s : Bus) (addr : Nat) :
    (_rd_ptr_w_barrier c s addr).1 = s.mem addr % 2 ^ (8 * LITEX_SUBREG_ALIGN c) ∧
    (_rd_ptr_w_barrier c s addr).1 < 2 ^ (8 * LITEX_SUBREG_ALIGN c) ∧
    (_rd_ptr_w_barrier ⟨SubregSize.four, false⟩ s addr).1
      < 2 ^ (8 * LITEX_SUBREG_SIZE ⟨SubregSize.four, false⟩) ∧
    (s.mem addr < 2 ^ (8 * LITEX_SUBREG_SIZE c) →
      (_rd_ptr_w_barrier c s addr).1 = s.mem addr ∧
      (_rd_ptr_w_barrier c s addr).1 < 2 ^ (8 * LITEX_SUBREG_SIZE c)) := by
  have hb := BITS_PER_LONG_eq c
  refine ⟨?_, ?_, ?_, ?_⟩
  · simp [ulong, hb]
  · rw [← hb]
    exact ulong_lt c _
  · exact ulong_lt ⟨SubregSize.four, false⟩ _
  · intro h
    have hle : 2 ^ (8 * LITEX_SUBREG_SIZE c) ≤ 2 ^ BITS_PER_LONG c := by
      apply Nat.pow_le_pow_right (by decide)
      obtain ⟨sw, b⟩ := c
      cases sw <;> cases b <;> simp [BITS_PER_LONG, LITEX_SUBREG_SIZE]
    have he : (_rd_ptr_w_barrier c s addr).1 = s.mem addr := by
      simp only [rd_ptr_val, ulong]
      exact Nat.mod_eq_of_lt (by omega)
    exact ⟨he, by rw [he]; exact h⟩

/-- C10, amended, at `SW = 1` on a 64-bit platform: the cell at 0 holds `0x12`, which is what the
primitive read returns. -/
theorem C10_primitive_read_width_witness :
    (_litex_wr_reg ⟨SubregSize.one, true⟩ ramBus 0 2 0x1234).mem 0
      < 2 ^ (8 * LITEX_SUBREG_SIZE ⟨SubregSize.one, true⟩) ∧
    (_rd_ptr_w_barrier ⟨SubregSize.one, true⟩
      (_litex_wr_reg ⟨SubregSize.one, true⟩ ramBus 0 2 0x1234) 0).1 = 0x12 :=
  ⟨by decide,
    ((C10_primitive_read_width ⟨SubregSize.one, true⟩
      (_litex_wr_reg ⟨SubregSize.one, true⟩ ramBus 0 2 0x1234) 0).2.2.2 (by decide)).1.trans
      (by decide)⟩

/-! ## Wrappers -/

/-- C7, as stated, fails. On a 32-bit platform with `SW = 4`, after
`_litex_wr_reg(0, 8, 2 ^ 32)` on a store that keeps what is written,
`_litex_rd_reg(0, 8)` returns `2 ^ 32` while `litex_get_reg(0, 8)`, whose
return type is the 32-bit `ulong`, returns 0. -/
theorem C7_counterexample :
    (_litex_rd_reg ⟨SubregSize.four, false⟩
        (_litex_wr_reg ⟨SubregSize.four, false⟩ ramBus 0 8 4294967296) 0 8).1 = 4294967296 ∧
    (litex_get_reg ⟨SubregSize.four, false⟩
        (_litex_wr_reg ⟨SubregSize.four, false⟩ ramBus 0 8 4294967296) 0 8).1 = 0 := by
  decide

/-- C7, amended. `litex_get_reg` returns the value of `_litex_rd_reg` reduced
to `ulong` (modulo `2 ^ (8 * SA)`) and leaves the same state; `litex_set_reg`
leaves the state of `_litex_wr_reg` called with the value reduced to `ulong`.
On a 64-bit platform both pairs coincide for every width and value; on any
platform they coincide when the value read, respectively the value to write,
is below `2 ^ (8 * SA)`. -/
theorem C7_runtime_width (c : Config) (s : Bus) (address byte_width value : Nat) :
    (litex_get_reg c s address byte_width).1
      = (_litex_rd_reg c s address byte_width).1 % 2 ^ (8 * LITEX_SUBREG_ALIGN c) ∧
    (litex_get_reg c s address byte_width).2 = (_litex_rd_reg c s address byte_width).2 ∧
    litex_set_reg c s address byte_width value
      = _litex_wr_reg c s address byte_width (value % 2 ^ (8 * LITEX_SUBREG_ALIGN c)) ∧
    (c.CONFIG_64BIT = true →
      litex_get_reg c s address byte_width = _litex_rd_reg c s address byte_width ∧
      litex_set_reg c s address byte_width value
        = _litex_wr_reg c s address byte_width value) ∧
    ((_litex_rd_reg c s address byte_width).1 < 2 ^ (8 * LITEX_SUBREG_ALIGN c) →
      litex_get_reg c s address byte_width = _litex_rd_reg c s address byte_width) ∧
    (value < 2 ^ (8 * LITEX_SUBREG_ALIGN c) →
      litex_set_reg c s address byte_width value
        = _litex_wr_reg c s address byte_width value) := by
  have hb := BITS_PER_LONG_eq c
  have hget : ∀ h : (_litex_rd_reg c s address byte_width).1 < 2 ^ (8 * LITEX_SUBREG_ALIGN c),
      litex_get_reg c s address byte_width = _litex_rd_reg c s address byte_width := by
    intro h
    apply Prod.ext
    · show ulong c _ = _
      rw [ulong, hb]
      exact Nat.mod_eq_of_lt h
    · rfl
  refine ⟨?_, rfl, ?_, ?_, hget, ?_⟩
  · show ulong c _ = _
    rw [ulong, hb]
  · show _litex_wr_reg c s address byte_width (ulong c value) = _
    rw [ulong, hb]
  · intro h64
    have h8 : 8 * LITEX_SUBREG_ALIGN c = 64 := by simp [LITEX_SUBREG_ALIGN, h64]
    constructor
    · apply hget
      rw [h8]
      exact rd_reg_lt c s address byte_width
    · show _litex_wr_reg c s address byte_width (ulong c value) = _
      unfold _litex_wr_reg _litex_wr_reg.body
      have : u64 (ulong c value) = u64 value := by
        simp [u64, ulong, hb, h8]
      rw [this]
  · intro h
    show _litex_wr_reg c s address byte_width (ulong c value) = _
    rw [ulong, hb, Nat.mod_eq_of_lt h]

/-- C7, amended, at concrete inputs: a 64-bit platform at width 8, and a 32-bit platform at
width 4 with a value that fits `ulong`. -/
theorem C7_runtime_width_witness :
    (⟨SubregSize.four, true⟩ : Config).CONFIG_64BIT = true ∧
    (_litex_rd_reg ⟨SubregSize.four, false⟩ ramBus 0 4).1
      < 2 ^ (8 * LITEX_SUBREG_ALIGN ⟨SubregSize.four, false⟩) ∧
    (7 : Nat) < 2 ^ (8 * LITEX_SUBREG_ALIGN ⟨SubregSize.four, false⟩) ∧
    litex_get_reg ⟨SubregSize.four, true⟩ ramBus 0 8
      = _litex_rd_reg ⟨SubregSize.four, true⟩ ramBus 0 8 ∧
    litex_get_reg ⟨SubregSize.four, false⟩ ramBus 0 4
      = _litex_rd_reg ⟨SubregSize.four, false⟩ ramBus 0 4 ∧
    litex_set_reg ⟨SubregSize.four, false⟩ ramBus 0 4 7
      = _litex_wr_reg ⟨SubregSize.four, false⟩ ramBus 0 4 7 :=
  ⟨rfl, by decide, by decide,
    ((C7_runtime_width ⟨SubregSize.four, true⟩ ramBus 0 8 0).2.2.2.1 rfl).1,
    (C7_runtime_width ⟨SubregSize.four, false⟩ ramBus 0 4 7).2.2.2.2.1 (by decide),
    (C7_runtime_width ⟨SubregSize.four, false⟩ ramBus 0 4 7).2.2.2.2.2 (by decide)⟩

/-- C8, as stated, fails. With `SW = 4` on a 32-bit platform, after
`_litex_wr_reg(0, 1, 0x1FF)` on a store that keeps what is written,
`_litex_rd_reg(0, 1)` returns `0x1FF` while `litex_reg_readb(0)`, whose
return type is `u8`, returns `0xFF`. -/
theorem C8_counterexample :
    (_litex_rd_reg ⟨SubregSize.four, false⟩
        (_litex_wr_reg ⟨SubregSize.four, false⟩ ramBus 0 1 0x1FF) 0 1).1 = 0x1FF ∧
    (litex_reg_readb ⟨SubregSize.four, false⟩
        (_litex_wr_reg ⟨SubregSize.four, false⟩ ramBus 0 1 0x1FF) 0).1 = 0xFF := by
  decide

theorem wr_reg_mod_u64 (c : Config) (s : Bus) (a w v : Nat) :
    _litex_wr_reg c s a w (v % 2 ^ 64) = _litex_wr_reg c s a w v := by
  have hb : ∀ ns, _litex_wr_reg.body c a ns (v % 2 ^ 64) = _litex_wr_reg.body c a ns v := by
    intro ns
    funext t i
    simp only [_litex_wr_reg.body, u64, Nat.mod_mod]
  simp only [_litex_wr_reg, hb]

/-- C8, amended. Each fixed-width read wrapper returns the value of
`_litex_rd_reg(address, W)` reduced modulo `2 ^ (8 * W)`, the conversion to its
return type, and leaves the same state; `litex_reg_readq` is `_litex_rd_reg`
at width 8, and the narrower wrappers agree with `_litex_rd_reg` whenever its
value is below `2 ^ (8 * W)`. Each write wrapper leaves the state of
`_litex_wr_reg(address, W, v mod 2 ^ (8 * W))`, which is that of
`_litex_wr_reg(address, W, v)` for every `v` representable in `W` bytes. -/
theorem C8_fixed_width (c : Config) (s : Bus) (address v : Nat) :
    ((litex_reg_readb c s address).1 = (_litex_rd_reg c s address 1).1 % 2 ^ 8 ∧
      (litex_reg_readb c s address).2 = (_litex_rd_reg c s address 1).2) ∧
    ((litex_reg_readw c s address).1 = (_litex_rd_reg c s address 2).1 % 2 ^ 16 ∧
      (litex_reg_readw c s address).2 = (_litex_rd_reg c s address 2).2) ∧
    ((litex_reg_readl c s address).1 = (_litex_rd_reg c s address 4).1 % 2 ^ 32 ∧
      (litex_reg_readl c s address).2 = (_litex_rd_reg c s address 4).2) ∧
    litex_reg_readq c s address = _litex_rd_reg c s address 8 ∧
    ((_litex_rd_reg c s address 1).1 < 2 ^ 8 →
      litex_reg_readb c s address = _litex_rd_reg c s address 1) ∧
    ((_litex_rd_reg c s address 2).1 < 2 ^ 16 →
      litex_reg_readw c s address = _litex_rd_reg c s address 2) ∧
    ((_litex_rd_reg c s address 4).1 < 2 ^ 32 →
      litex_reg_readl c s address = _litex_rd_reg c s address 4) ∧
    litex_reg_writeb c s address v = _litex_wr_reg c s address 1 (v % 2 ^ 8) ∧
    litex_reg_writew c s address v = _litex_wr_reg c s address 2 (v % 2 ^ 16) ∧
    litex_reg_writel c s address v = _litex_wr_reg c s address 4 (v % 2 ^ 32) ∧
    litex_reg_writeq c s address v = _litex_wr_reg c s address 8 v ∧
    (v < 2 ^ 8 → litex_reg_writeb c s address v = _litex_wr_reg c s address 1 v) ∧
    (v < 2 ^ 16 → litex_reg_writew c s address v = _litex_wr_reg c s address 2 v) ∧
    (v < 2 ^ 32 → litex_reg_writel c s address v = _litex_wr_reg c s address 4 v) := by
  refine ⟨⟨rfl, rfl⟩, ⟨rfl, rfl⟩, ⟨rfl, rfl⟩, ?_, ?_, ?_, ?_, rfl, rfl, rfl, ?_, ?_, ?_, ?_⟩
  · apply Prod.ext
    · exact Nat.mod_eq_of_lt (rd_reg_lt c s address 8)
    · rfl
  · intro h
    exact Prod.ext (Nat.mod_eq_of_lt h) rfl
  · intro h
    exact Prod.ext (Nat.mod_eq_of_lt h) rfl
  · intro h
    exact Prod.ext (Nat.mod_eq_of_lt h) rfl
  · exact wr_reg_mod_u64 c s address 8 v
  · intro h
    show _litex_wr_reg c s address 1 (v % 2 ^ 8) = _
    rw [Nat.mod_eq_of_lt h]
  · intro h
    show _litex_wr_reg c s address 2 (v % 2 ^ 16) = _
    rw [Nat.mod_eq_of_lt h]
  · intro h
    show _litex_wr_reg c s address 4 (v % 2 ^ 32) = _
    rw [Nat.mod_eq_of_lt h]

/-- C8, amended, at concrete inputs: values that fit the wrapper types. -/
theorem C8_fixed_width_witness :
    (_litex_rd_reg ⟨SubregSize.one, false⟩ ramBus 0 1).1 < 2 ^ 8 ∧
    (_litex_rd_reg ⟨SubregSize.one, false⟩ ramBus 0 2).1 < 2 ^ 16 ∧
    (_litex_rd_reg ⟨SubregSize.one, false⟩ ramBus 0 4).1 < 2 ^ 32 ∧
    (200 : Nat) < 2 ^ 8 ∧
    litex_reg_readb ⟨SubregSize.one, false⟩ ramBus 0 = _litex_rd_reg ⟨SubregSize.one, false⟩ ramBus 0 1 ∧
    litex_reg_readw ⟨SubregSize.one, false⟩ ramBus 0 = _litex_rd_reg ⟨SubregSize.one, false⟩ ramBus 0 2 ∧
    litex_reg_readl ⟨SubregSize.one, false⟩ ramBus 0 = _litex_rd_reg ⟨SubregSize.one, false⟩ ramBus 0 4 ∧
    litex_reg_writeb ⟨SubregSize.one, false⟩ ramBus 0 200
      = _litex_wr_reg ⟨SubregSize.one, false⟩ ramBus 0 1 200 ∧
    litex_reg_writew ⟨SubregSize.one, false⟩ ramBus 0 200
      = _litex_wr_reg ⟨SubregSize.one, false⟩ ramBus 0 2 200 ∧
    litex_reg_writel ⟨SubregSize.one, false⟩ ramBus 0 200
      = _litex_wr_reg ⟨SubregSize.one, false⟩ ramBus 0 4 200 :=
  ⟨by decide, by decide, by decide, by decide,
    (C8_fixed_width ⟨SubregSize.one, false⟩ ramBus 0 200).2.2.2.2.1 (by decide),
    (C8_fixed_width ⟨SubregSize.one, false⟩ ramBus 0 200).2.2.2.2.2.1 (by decide),
    (C8_fixed_width ⟨SubregSize.one, false⟩ ramBus 0 200).2.2.2.2.2.2.1 (by decide),
    (C8_fixed_width ⟨SubregSize.one, false⟩ ramBus 0 200).2.2.2.2.2.2.2.2.2.2.2.1 (by decide),
    (C8_fixed_width ⟨SubregSize.one, false⟩ ramBus 0 200).2.2.2.2.2.2.2.2.2.2.2.2.1 (by decide),
    (C8_fixed_width ⟨SubregSize.one, false⟩ ramBus 0 200).2.2.2.2.2.2.2.2.2.2.2.2.2 (by decide)⟩

/-! ## Traces of the composite accessors -/

theorem accesses_append (l1 l2 : List Event) :
    accesses (l1 ++ l2) = accesses l1 ++ accesses l2 := by
  induction l1 with
  | nil => rfl
  | cons e l ih =>
    cases e <;> simp [accesses, ih]

theorem stores_append (l1 l2 : List Event) :
    stores (l1 ++ l2) = stores l1 ++ stores l2 := by
  induction l1 with
  | nil => rfl
  | cons e l ih =>
    cases e <;> simp [stores, ih]

theorem rd_fold_accesses (c : Config) (a : Nat) (l : List Nat) (p : Nat × Bus) :
    accesses (l.foldl (_litex_rd_reg.body c a) p).2.trace
      = accesses p.2.trace ++ l.map (subreg_addr c a) := by
  induction l generalizing p with
  | nil => simp
  | cons i l ih =>
    simp only [List.foldl_cons, List.map_cons]
    rw [ih]
    simp [_litex_rd_reg.body, accesses_append, accesses]

theorem wr_fold_latch (c : Config) (a ns v : Nat) (l : List Nat) (s : Bus) :
    (l.foldl (_litex_wr_reg.body c a ns v) s).latch = s.latch := by
  induction l generalizing s with
  | nil => rfl
  | cons i l ih =>
    simp only [List.foldl_cons]
    rw [ih]
    rfl

theorem wr_fold_accesses (c : Config) (a ns v : Nat) (l : List Nat) (s : Bus) :
    accesses (l.foldl (_litex_wr_reg.body c a ns v) s).trace
      = accesses s.trace ++ l.map (subreg_addr c a) := by
  induction l generalizing s with
  | nil => simp
  | cons i l ih =>
    simp only [List.foldl_cons, List.map_cons]
    rw [ih]
    simp [_litex_wr_reg.body, accesses_append, accesses]

theorem wr_fold_stores (c : Config) (a ns v : Nat) (l : List Nat) (s : Bus) :
    stores (l.foldl (_litex_wr_reg.body c a ns v) s).trace
      = stores s.trace ++ l.map (fun i =>
          (subreg_addr c a i, ulong c (u64 v >>> _litex_wr_reg.shift c ns i))) := by
  induction l generalizing s with
  | nil => simp
  | cons i l ih =>
    simp only [List.foldl_cons, List.map_cons]
    rw [ih]
    simp [_litex_wr_reg.body, stores_append, stores]

/-- A cell whose address is not among those written keeps its content. -/
theorem wr_fold_mem_notin (c : Config) (a ns v : Nat) (l : List Nat) (s : Bus) (x : Nat)
    (hx : x ∉ l.map (subreg_addr c a)) :
    (l.foldl (_litex_wr_reg.body c a ns v) s).mem x = s.mem x := by
  induction l generalizing s with
  | nil => rfl
  | cons i l ih =>
    simp only [List.map_cons, List.mem_cons, not_or] at hx
    simp only [List.foldl_cons]
    rw [ih _ hx.2]
    simp only [_litex_wr_reg.body, wr_ptr_mem]
    exact Function.update_noteq hx.1 _ _

/-- A cell written once in the loop holds what it retains of the word of its
iteration. -/
theorem wr_fold_mem_in (c : Config) (a ns v : Nat) (l : List Nat) (s : Bus) (i : Nat)
    (hnd : l.Nodup)
    (hinj : ∀ j ∈ l, ∀ k ∈ l, subreg_addr c a j = subreg_addr c a k → j = k)
    (hi : i ∈ l) :
    (l.foldl (_litex_wr_reg.body c a ns v) s).mem (subreg_addr c a i)
      = s.latch (ulong c (u64 v >>> _litex_wr_reg.shift c ns i)) := by
  induction l generalizing s with
  | nil => simp at hi
  | cons j l ih =>
    simp only [List.foldl_cons]
    have hnd' := (List.nodup_cons.mp hnd)
    have hinj' : ∀ j ∈ l, ∀ k ∈ l, subreg_addr c a j = subreg_addr c a k → j = k :=
      fun j hj k hk => hinj j (List.mem_cons_of_mem _ hj) k (List.mem_cons_of_mem _ hk)
    by_cases hil : i ∈ l
    · rw [ih _ hnd'.2 hinj' hil]
      rfl
    · have hij : i = j := by
        rcases List.mem_cons.mp hi with h | h
        · exact h
        · exact absurd h hil
      subst hij
      have hnot : subreg_addr c a i ∉ l.map (subreg_addr c a) := by
        intro hmem
        obtain ⟨k, hk, hke⟩ := List.mem_map.mp hmem
        have := hinj k (List.mem_cons_of_mem _ hk) i (List.mem_cons_self _ _) hke
        exact hil (this ▸ hk)
      rw [wr_fold_mem_notin c a ns v l _ _ hnot]
      simp only [_litex_wr_reg.body, wr_ptr_mem]
      exact Function.update_same _ _ _

/-! ## Geometry for widths 1 to 8 -/

theorem num_subregs_bounds (c : Config) (w : Nat) (h1 : 1 ≤ w) (h8 : w ≤ 8) :
    1 ≤ _litex_num_subregs c w ∧ _litex_num_subregs c w ≤ 8 := by
  obtain ⟨sw, b⟩ := c
  interval_cases w <;> cases sw <;> cases b <;> exact ⟨by decide, by decide⟩

theorem subreg_addr_eq (c : Config) (a i : Nat) (hi : i < 8) :
    subreg_addr c a i = a + i * LITEX_SUBREG_ALIGN c := by
  unfold subreg_addr u32
  congr 1
  apply Nat.mod_eq_of_lt
  rcases LITEX_SUBREG_ALIGN_cases c with h | h <;> rw [h] <;> omega

theorem shift_eq (c : Config) (ns i : Nat) (hi : i < ns) (hns : ns ≤ 8) :
    _litex_wr_reg.shift c ns i = 8 * LITEX_SUBREG_SIZE c * (ns - 1 - i) := by
  unfold _litex_wr_reg.shift LITEX_SUBREG_SIZE_BIT
  have h2 : (8 : Nat) < 2 ^ 32 := by decide
  rw [u32_sub_eq ns 1 (by omega) (by omega), u32_sub_eq (ns - 1) i (by omega) (by omega)]
  unfold u32
  rw [Nat.mul_comm (LITEX_SUBREG_SIZE c) 8]
  apply Nat.mod_eq_of_lt
  have h3 : ns - 1 - i ≤ 7 := by omega
  have h4 : 8 * LITEX_SUBREG_SIZE c ≤ 32 := by
    rcases LITEX_SUBREG_SIZE_cases c with h | h <;> omega
  calc 8 * LITEX_SUBREG_SIZE c * (ns - 1 - i) ≤ 32 * 7 := Nat.mul_le_mul h4 h3
    _ < 2 ^ 32 := by decide

theorem map_subreg_addr_range (c : Config) (a n : Nat) (hn : n ≤ 8) :
    (List.range n).map (subreg_addr c a)
      = (List.range n).map (fun i => a + i * LITEX_SUBREG_ALIGN c) := by
  apply List.map_congr_left
  intro i hi
  have := List.mem_range.mp hi
  exact subreg_addr_eq c a i (by omega)

theorem range_eq_cons (n : Nat) (hn : 1 ≤ n) :
    List.range n = 0 :: List.range' 1 (n - 1) := by
  obtain ⟨m, rfl⟩ : ∃ m, n = m + 1 := ⟨n - 1, by omega⟩
  rw [List.range_eq_range', Nat.add_sub_cancel]
  rfl

theorem subreg_addr_zero (c : Config) (a : Nat) : subreg_addr c a 0 = a := by
  simp [subreg_addr, u32]

theorem rd_reg_accesses (c : Config) (s : Bus) (a w : Nat)
    (h1 : 1 ≤ _litex_num_subregs c w) :
    accesses (_litex_rd_reg c s a w).2.trace
      = accesses s.trace ++ (List.range (_litex_num_subregs c w)).map (subreg_addr c a) := by
  unfold _litex_rd_reg
  rw [rd_fold_accesses, range_eq_cons _ h1]
  simp [accesses_append, accesses, subreg_addr_zero]

theorem wr_reg_accesses (c : Config) (s : Bus) (a w v : Nat) :
    accesses (_litex_wr_reg c s a w v).trace
      = accesses s.trace ++ (List.range (_litex_num_subregs c w)).map (subreg_addr c a) := by
  unfold _litex_wr_reg
  exact wr_fold_accesses c a _ v _ s

/-- C5. For every configuration, base and byte width from 1 to 8, with
`N = _litex_num_subregs(byte_width)`, the loads of `_litex_rd_reg` and the
stores of `_litex_wr_reg` touch exactly the addresses
`base, base + SA, ..., base + (N - 1) * SA`, in this order, each once
(`N` accesses); for width 8 and `SW = 4` these are `base, base + SA`. -/
theorem C5_access_order (c : Config) (s : Bus) (base byte_width v : Nat)
    (h1 : 1 ≤ byte_width) (h8 : byte_width ≤ 8) :
    accesses (_litex_rd_reg c s base byte_width).2.trace
      = accesses s.trace ++ (List.range (_litex_num_subregs c byte_width)).map
          (fun i => base + i * LITEX_SUBREG_ALIGN c) ∧
    accesses (_litex_wr_reg c s base byte_width v).trace
      = accesses s.trace ++ (List.range (_litex_num_subregs c byte_width)).map
          (fun i => base + i * LITEX_SUBREG_ALIGN c) ∧
    ((List.range (_litex_num_subregs c byte_width)).map
      (fun i => base + i * LITEX_SUBREG_ALIGN c)).length = _litex_num_subregs c byte_width ∧
    ((List.range (_litex_num_subregs c byte_width)).map
      (fun i => base + i * LITEX_SUBREG_ALIGN c)).Nodup ∧
    (c.CONFIG_LITEX_SUBREG_SIZE = SubregSize.four →
      accesses (_litex_rd_reg c s base 8).2.trace
        = accesses s.trace ++ [base, base + LITEX_SUBREG_ALIGN c] ∧
      accesses (_litex_wr_reg c s base 8 v).trace
        = accesses s.trace ++ [base, base + LITEX_SUBREG_ALIGN c]) := by
  obtain ⟨hN1, hN8⟩ := num_subregs_bounds c byte_width h1 h8
  have hmap := map_subreg_addr_range c base _ hN8
  refine ⟨?_, ?_, ?_, ?_, ?_⟩
  · rw [rd_reg_accesses c s base byte_width hN1, hmap]
  · rw [wr_reg_accesses, hmap]
  · simp
  · apply List.Nodup.map_on _ (List.nodup_range _)
    intro i _ j _ hij
    have hpos : 0 < LITEX_SUBREG_ALIGN c := by
      rcases LITEX_SUBREG_ALIGN_cases c with h | h <;> omega
    have : i * LITEX_SUBREG_ALIGN c = j * LITEX_SUBREG_ALIGN c := by omega
    exact Nat.eq_of_mul_eq_mul_right hpos this
  · intro h4
    obtain ⟨hM1, hM8⟩ := num_subregs_bounds c 8 (by decide) (by decide)
    have hN : _litex_num_subregs c 8 = 2 := by
      obtain ⟨sw, b⟩ := c
      simp only at h4
      subst h4
      cases b <;> decide
    have hmap8 := map_subreg_addr_range c base _ hM8
    rw [rd_reg_accesses c s base 8 hM1, wr_reg_accesses, hmap8, hN]
    simp [List.range_succ]

/-- C5 at concrete inputs: width 3 with `SW = 1`, `SA = 4` at base 32, and width 8 with `SW = 4`,
`SA = 8`. -/
theorem C5_access_order_witness :
    (⟨SubregSize.four, true⟩ : Config).CONFIG_LITEX_SUBREG_SIZE = SubregSize.four ∧
    accesses (_litex_rd_reg ⟨SubregSize.one, false⟩ ramBus 32 3).2.trace = [32, 36, 40] ∧
    accesses (_litex_wr_reg ⟨SubregSize.one, false⟩ ramBus 32 3 7).trace = [32, 36, 40] ∧
    accesses (_litex_rd_reg ⟨SubregSize.four, true⟩ ramBus 32 8).2.trace = [32, 40] :=
  ⟨rfl,
    (C5_access_order ⟨SubregSize.one, false⟩ ramBus 32 3 7 (by decide) (by decide)).1.trans
      (by decide),
    (C5_access_order ⟨SubregSize.one, false⟩ ramBus 32 3 7 (by decide) (by decide)).2.1.trans
      (by decide),
    ((C5_access_order ⟨SubregSize.four, true⟩ ramBus 32 8 7 (by decide) (by decide)).2.2.2.2
      rfl).1.trans (by decide)⟩

/-! ## What the write stores -/

theorem ulong_eq (c : Config) (x : Nat) : ulong c x = x % 2 ^ (8 * LITEX_SUBREG_ALIGN c) := by
  unfold ulong
  rw [BITS_PER_LONG_eq]

theorem wr_reg_stores (c : Config) (s : Bus) (a w v : Nat)
    (h1 : 1 ≤ w) (h8 : w ≤ 8) :
    stores (_litex_wr_reg c s a w v).trace
      = stores s.trace ++ (List.range (_litex_num_subregs c w)).map (fun i =>
          (a + i * LITEX_SUBREG_ALIGN c,
            ((v % 2 ^ 64) >>> (LITEX_SUBREG_SIZE c * 8 * (_litex_num_subregs c w - 1 - i)))
              % 2 ^ (8 * LITEX_SUBREG_ALIGN c))) := by
  obtain ⟨hN1, hN8⟩ := num_subregs_bounds c w h1 h8
  unfold _litex_wr_reg
  rw [wr_fold_stores]
  congr 1
  apply List.map_congr_left
  intro i hi
  have hi' := List.mem_range.mp hi
  rw [subreg_addr_eq c a i (by omega), shift_eq c _ i hi' hN8, ulong_eq,
    Nat.mul_comm 8 (LITEX_SUBREG_SIZE c)]
  rfl

theorem wr_reg_mem (c : Config) (s : Bus) (a w v i : Nat)
    (h1 : 1 ≤ w) (h8 : w ≤ 8) (hi : i < _litex_num_subregs c w) :
    (_litex_wr_reg c s a w v).mem (a + i * LITEX_SUBREG_ALIGN c)
      = s.latch (((v % 2 ^ 64) >>>
          (LITEX_SUBREG_SIZE c * 8 * (_litex_num_subregs c w - 1 - i)))
            % 2 ^ (8 * LITEX_SUBREG_ALIGN c)) := by
  obtain ⟨hN1, hN8⟩ := num_subregs_bounds c w h1 h8
  have hpos : 0 < LITEX_SUBREG_ALIGN c := by
    rcases LITEX_SUBREG_ALIGN_cases c with h | h <;> omega
  have hinj : ∀ j ∈ List.range (_litex_num_subregs c w),
      ∀ k ∈ List.range (_litex_num_subregs c w),
      subreg_addr c a j = subreg_addr c a k → j = k := by
    intro j hj k hk hjk
    have hj' := List.mem_range.mp hj
    have hk' := List.mem_range.mp hk
    rw [subreg_addr_eq c a j (by omega), subreg_addr_eq c a k (by omega)] at hjk
    have : j * LITEX_SUBREG_ALIGN c = k * LITEX_SUBREG_ALIGN c := by omega
    exact Nat.eq_of_mul_eq_mul_right hpos this
  have h := wr_fold_mem_in c a (_litex_num_subregs c w) v _ s i (List.nodup_range _) hinj
    (List.mem_range.mpr hi)
  rw [subreg_addr_eq c a i (by omega), shift_eq c _ i hi hN8, ulong_eq,
    Nat.mul_comm 8 (LITEX_SUBREG_SIZE c)] at h
  exact h

/-- C4, as stated, fails. With `SW = 1` on a 32-bit platform,
`_litex_wr_reg(0, 1, 0x1FF)` issues one store, of the word `0x1FF` to
address 0, and a store that keeps what is written then holds `0x1FF` there;
the value of the claim, `(0x1FF >> 0) mod 2 ^ 8`, is `0xFF`. -/
theorem C4_counterexample :
    stores (_litex_wr_reg ⟨SubregSize.one, false⟩ ramBus 0 1 0x1FF).trace = [(0, 0x1FF)] ∧
    (_litex_wr_reg ⟨SubregSize.one, false⟩ ramBus 0 1 0x1FF).mem 0 = 0x1FF ∧
    (0x1FF >>> (LITEX_SUBREG_SIZE ⟨SubregSize.one, false⟩ * 8 *
        (_litex_num_subregs ⟨SubregSize.one, false⟩ 1 - 1 - 0)))
      % 2 ^ (8 * LITEX_SUBREG_SIZE ⟨SubregSize.one, false⟩) = 0xFF := by
  decide

/-- C4, amended. For every configuration, base, byte width from 1 to 8 with
`N = _litex_num_subregs(byte_width)` and every value (taken as a `u64`),
`_litex_wr_reg` issues exactly `N` stores, the `i`-th to `base + i * SA` of
the word `(value >> (SW * 8 * (N - 1 - i)))` reduced to `unsigned long`,
that is modulo `2 ^ (8 * SA)`; the low `SW` bytes of that word are
`(value >> (SW * 8 * (N - 1 - i))) mod 2 ^ (8 * SW)`; and after the call the
cell at `base + i * SA` holds what it retains of that word. -/
theorem C4_write_decomposition (c : Config) (s : Bus) (base byte_width value : Nat)
    (h1 : 1 ≤ byte_width) (h8 : byte_width ≤ 8) :
    stores (_litex_wr_reg c s base byte_width value).trace
      = stores s.trace ++ (List.range (_litex_num_subregs c byte_width)).map (fun i =>
          (base + i * LITEX_SUBREG_ALIGN c,
            ((value % 2 ^ 64) >>>
              (LITEX_SUBREG_SIZE c * 8 * (_litex_num_subregs c byte_width - 1 - i)))
              % 2 ^ (8 * LITEX_SUBREG_ALIGN c))) ∧
    (∀ i, i < _litex_num_subregs c byte_width →
      (((value % 2 ^ 64) >>>
          (LITEX_SUBREG_SIZE c * 8 * (_litex_num_subregs c byte_width - 1 - i)))
          % 2 ^ (8 * LITEX_SUBREG_ALIGN c)) % 2 ^ (8 * LITEX_SUBREG_SIZE c)
        = ((value % 2 ^ 64) >>>
          (LITEX_SUBREG_SIZE c * 8 * (_litex_num_subregs c byte_width - 1 - i)))
          % 2 ^ (8 * LITEX_SUBREG_SIZE c)) ∧
    (∀ i, i < _litex_num_subregs c byte_width →
      (_litex_wr_reg c s base byte_width value).mem (base + i * LITEX_SUBREG_ALIGN c)
        = s.latch (((value % 2 ^ 64) >>>
            (LITEX_SUBREG_SIZE c * 8 * (_litex_num_subregs c byte_width - 1 - i)))
            % 2 ^ (8 * LITEX_SUBREG_ALIGN c))) := by
  refine ⟨wr_reg_stores c s base byte_width value h1 h8, ?_, ?_⟩
  · intro i _
    apply Nat.mod_mod_of_dvd
    apply Nat.pow_dvd_pow
    rcases LITEX_SUBREG_ALIGN_cases c with h | h <;>
      rcases LITEX_SUBREG_SIZE_cases c with h' | h' <;> omega
  · intro i hi
    exact wr_reg_mem c s base byte_width value i h1 h8 hi

/-- C4, amended, at `SW = 4` on a 64-bit platform, width 8: the second store carries the whole
64-bit word. -/
theorem C4_write_decomposition_witness :
    (0 : Nat) < _litex_num_subregs ⟨SubregSize.four, true⟩ 8 ∧
    stores (_litex_wr_reg ⟨SubregSize.four, true⟩ ramBus 16 8 0x1122334455667788).trace
      = [(16, 0x11223344), (24, 0x1122334455667788)] ∧
    (_litex_wr_reg ⟨SubregSize.four, true⟩ ramBus 16 8 0x1122334455667788).mem 16
      = 0x11223344 :=
  ⟨by decide,
    (C4_write_decomposition ⟨SubregSize.four, true⟩ ramBus 16 8 0x1122334455667788
      (by decide) (by decide)).1.trans (by decide),
    ((C4_write_decomposition ⟨SubregSize.four, true⟩ ramBus 16 8 0x1122334455667788
      (by decide) (by decide)).2.2 0 (by decide)).trans (by decide)⟩

/-! ## Composition on read -/

theorem num_subregs_bits (c : Config) (w : Nat) (h1 : 1 ≤ w) (h8 : w ≤ 8) :
    8 * w ≤ _litex_num_subregs c w * (8 * LITEX_SUBREG_SIZE c) ∧
    _litex_num_subregs c w * (8 * LITEX_SUBREG_SIZE c) ≤ 64 := by
  obtain ⟨sw, b⟩ := c
  interval_cases w <;> cases sw <;> cases b <;> exact ⟨by decide, by decide⟩

/-- Shifting chunks below `2 ^ S` in one after the other, while the
accumulator stays within 64 bits, yields their big-endian sum. -/
theorem fold_shift_or_sum (S : Nat) (x : Nat → Nat) (k : Nat)
    (hx : ∀ i, i ≤ k → x i < 2 ^ S) (hk : S * (k + 1) ≤ 64) :
    (List.range' 1 k).foldl (fun r i => u64 (r <<< S) ||| x i) (x 0)
        = ∑ i in Finset.range (k + 1), x i * 2 ^ (S * (k - i)) ∧
    (List.range' 1 k).foldl (fun r i => u64 (r <<< S) ||| x i) (x 0) < 2 ^ (S * (k + 1)) := by
  induction k with
  | zero =>
    have h0 := hx 0 (Nat.le_refl 0)
    simpa using h0
  | succ k ih =>
    have hk' : S * (k + 1) ≤ 64 := by
      have : S * (k + 1) ≤ S * (k + 1 + 1) := Nat.mul_le_mul_left S (by omega)
      omega
    obtain ⟨ihe, ihl⟩ := ih (fun i hi => hx i (by omega)) hk'
    have hxk := hx (k + 1) (Nat.le_refl _)
    rw [List.range'_1_concat, List.foldl_append]
    simp only [List.foldl_cons, List.foldl_nil]
    generalize (List.range' 1 k).foldl (fun r i => u64 (r <<< S) ||| x i) (x 0) = r at ihe ihl
    have hexp : S * (k + 1 + 1) = S * (k + 1) + S := by ring
    have hmul : r * 2 ^ S < 2 ^ (S * (k + 1 + 1)) := by
      rw [hexp, Nat.pow_add]
      exact Nat.mul_lt_mul_of_pos_right ihl (Nat.two_pow_pos S)
    have hle64 : 2 ^ (S * (k + 1 + 1)) ≤ 2 ^ 64 := Nat.pow_le_pow_right (by decide) hk
    have hu : u64 (r <<< S) = 2 ^ S * r := by
      unfold u64
      rw [Nat.shiftLeft_eq, Nat.mod_eq_of_lt (by omega), Nat.mul_comm]
    have hor : 2 ^ S * r ||| x (1 + k) = 2 ^ S * r + x (k + 1) := by
      rw [Nat.add_comm 1 k]
      exact (Nat.mul_add_lt_is_or hxk r).symm
    rw [hu, hor]
    constructor
    · rw [Finset.sum_range_succ _ (k + 1), Nat.sub_self, Nat.mul_zero, Nat.pow_zero, Nat.mul_one]
      congr 1
      rw [ihe, Finset.mul_sum]
      apply Finset.sum_congr rfl
      intro i hi
      have hi' := Finset.mem_range.mp hi
      have : S * (k + 1 - i) = S + S * (k - i) := by
        have : k + 1 - i = (k - i) + 1 := by omega
        rw [this]
        ring
      rw [this, Nat.pow_add]
      ring
    · have : 2 ^ S * r + x (k + 1) < 2 ^ S * (r + 1) := by
        rw [Nat.mul_add, Nat.mul_one]
        omega
      have h2 : 2 ^ S * (r + 1) ≤ 2 ^ S * 2 ^ (S * (k + 1)) :=
        Nat.mul_le_mul_left _ ihl
      rw [hexp, Nat.pow_add, Nat.mul_comm (2 ^ (S * (k + 1))) (2 ^ S)]
      omega

/-- C3. For every configuration, base and byte width from 1 to 8 with
`N = _litex_num_subregs(byte_width)`: if every subregister read at
`base + i * SA`, `i < N`, returns a value below `2 ^ (8 * SW)`, then
`_litex_rd_reg(base, byte_width)` returns the sum over `i < N` of these
values times `2 ^ (8 * SW * (N - 1 - i))`, the lowest address supplying the
most significant `SW * 8` bits. -/
theorem C3_read_composition (c : Config) (s : Bus) (base byte_width : Nat)
    (h1 : 1 ≤ byte_width) (h8 : byte_width ≤ 8)
    (hsub : ∀ i, i < _litex_num_subregs c byte_width →
      (_rd_ptr_w_barrier c s (base + i * LITEX_SUBREG_ALIGN c)).1
        < 2 ^ (8 * LITEX_SUBREG_SIZE c)) :
    (_litex_rd_reg c s base byte_width).1
      = ∑ i in Finset.range (_litex_num_subregs c byte_width),
          (_rd_ptr_w_barrier c s (base + i * LITEX_SUBREG_ALIGN c)).1
            * 2 ^ (8 * LITEX_SUBREG_SIZE c * (_litex_num_subregs c byte_width - 1 - i)) := by
  obtain ⟨hN1, hN8⟩ := num_subregs_bounds c byte_width h1 h8
  obtain ⟨_, hbits⟩ := num_subregs_bits c byte_width h1 h8
  obtain ⟨k, hk⟩ : ∃ k, _litex_num_subregs c byte_width = k + 1 :=
    ⟨_litex_num_subregs c byte_width - 1, by omega⟩
  rw [hk] at hsub hbits
  rw [rd_reg_val, hk, Nat.add_sub_cancel]
  have hS : LITEX_SUBREG_SIZE_BIT c = 8 * LITEX_SUBREG_SIZE c := by
    unfold LITEX_SUBREG_SIZE_BIT
    exact Nat.mul_comm _ _
  have hx0 : ulong c (s.mem base) = ulong c (s.mem (subreg_addr c base 0)) := by
    rw [subreg_addr_zero]
  rw [hx0, hS]
  have hfold := (fold_shift_or_sum (8 * LITEX_SUBREG_SIZE c)
    (fun i => ulong c (s.mem (subreg_addr c base i))) k
    (by
      intro i hi
      have := hsub i (by omega)
      rw [rd_ptr_val, ← subreg_addr_eq c base i (by omega)] at this
      exact this)
    (by rw [Nat.mul_comm]; exact hbits)).1
  rw [hfold]
  apply Finset.sum_congr rfl
  intro i hi
  have hi' := Finset.mem_range.mp hi
  simp only [rd_ptr_val]
  rw [subreg_addr_eq c base i (by omega)]

/-- C3 at `SW = 1`, width 2, over cells holding `0x12` and `0x34`. -/
theorem C3_read_composition_witness :
    (_litex_rd_reg ⟨SubregSize.one, false⟩
        (_litex_wr_reg ⟨SubregSize.four, false⟩ ramBus 0 8 0x0000001200000034) 0 2).1
      = 0x12 * 2 ^ 8 + 0x34 :=
  (C3_read_composition ⟨SubregSize.one, false⟩
    (_litex_wr_reg ⟨SubregSize.four, false⟩ ramBus 0 8 0x0000001200000034) 0 2
    (by decide) (by decide) (by decide)).trans (by decide)

/-! ## Round trip on a store that keeps what is written -/

theorem testBit_lt_64 (w j : Nat) (hw : w < 2 ^ 64) (hj : w.testBit j = true) : j < 64 := by
  by_contra hge
  have h64 : 64 ≤ j := by omega
  have : w < 2 ^ j := Nat.lt_of_lt_of_le hw (Nat.pow_le_pow_right (by decide) h64)
  rw [Nat.testBit_lt_two_pow this] at hj
  exact Bool.false_ne_true hj

/-- One step of the read loop over overlapping windows of the same word: the
accumulator holds bits `S ..` of `w` (a window of `K` bits), the next cell
holds the low `B` bits of `w`; together they are the low `K + S` bits. -/
theorem or_window (w S B K : Nat) (hw : w < 2 ^ 64) (hSB : S ≤ B) (hBK : B ≤ K + S) :
    u64 (((w >>> S) % 2 ^ K) <<< S) ||| (w % 2 ^ B) = w % 2 ^ (K + S) := by
  apply Nat.eq_of_testBit_eq
  intro j
  unfold u64
  simp only [Nat.testBit_or, Nat.testBit_mod_two_pow, Nat.testBit_shiftLeft,
    Nat.testBit_shiftRight]
  cases hb : w.testBit j with
  | false =>
    by_cases hj : S ≤ j
    · have : S + (j - S) = j := by omega
      simp [this, hb]
    · simp [hj]
  | true =>
    have h64 := testBit_lt_64 w j hw hb
    by_cases hj : S ≤ j
    · have : S + (j - S) = j := by omega
      simp only [this, hb, Bool.and_true, Bool.or_eq_true, Bool.and_eq_true,
        decide_eq_true_eq, ge_iff_le]
      rw [Bool.eq_iff_iff]
      simp only [Bool.or_eq_true, Bool.and_eq_true, decide_eq_true_eq]
      constructor
      · rintro (⟨_, _, h⟩ | h) <;> omega
      · intro h
        left
        exact ⟨h64, hj, by omega⟩
    · have hjB : j < B := by omega
      have hjK : j < K + S := by omega
      simp [hj, hjB, hjK]

/-- The read loop over cells holding the `B`-bit words that the write loop
stores: after `k` iterations the accumulator is the window of `B + S * k`
bits of `V` starting at bit `S * (n - k)`. -/
theorem fold_windows (V S B n : Nat) (hV : V < 2 ^ 64) (hSB : S ≤ B) (k : Nat) (hk : k ≤ n) :
    (List.range' 1 k).foldl
        (fun r i => u64 (r <<< S) ||| ((V >>> (S * (n - i))) % 2 ^ B))
        ((V >>> (S * n)) % 2 ^ B)
      = (V >>> (S * (n - k))) % 2 ^ (B + S * k) := by
  induction k with
  | zero => simp
  | succ k ih =>
    rw [List.range'_1_concat, List.foldl_append, ih (by omega)]
    simp only [List.foldl_cons, List.foldl_nil]
    have h1 : n - k = (n - (1 + k)) + 1 := by omega
    have h2 : S * (n - k) = S * (n - (1 + k)) + S := by
      rw [h1]
      ring
    have hw : V >>> (S * (n - (1 + k))) < 2 ^ 64 := by
      rw [Nat.shiftRight_eq_div_pow]
      exact Nat.lt_of_le_of_lt (Nat.div_le_self _ _) hV
    rw [h2, Nat.shiftRight_add, or_window _ S B (B + S * k) hw hSB (by omega)]
    congr 2
    · rw [Nat.add_comm 1 k]
    · ring

theorem SIZE_BIT_le_BITS (c : Config) : 8 * LITEX_SUBREG_SIZE c ≤ 8 * LITEX_SUBREG_ALIGN c := by
  rcases LITEX_SUBREG_ALIGN_cases c with h | h <;>
    rcases LITEX_SUBREG_SIZE_cases c with h' | h' <;> omega

/-- The value read back after a write on a store that keeps every word
written: the low `8 * SA + 8 * SW * (N - 1)` bits of the `u64` written. -/
theorem rd_wr_ram (c : Config) (s : Bus) (base w v : Nat)
    (h1 : 1 ≤ w) (h8 : w ≤ 8) (hram : ∀ x, s.latch x = x) :
    (_litex_rd_reg c (_litex_wr_reg c s base w v) base w).1
      = (v % 2 ^ 64) % 2 ^ (8 * LITEX_SUBREG_ALIGN c
          + 8 * LITEX_SUBREG_SIZE c * (_litex_num_subregs c w - 1)) := by
  obtain ⟨hN1, hN8⟩ := num_subregs_bounds c w h1 h8
  have hS : LITEX_SUBREG_SIZE_BIT c = 8 * LITEX_SUBREG_SIZE c := by
    unfold LITEX_SUBREG_SIZE_BIT
    exact Nat.mul_comm _ _
  have hcell : ∀ i, i < _litex_num_subregs c w →
      ulong c ((_litex_wr_reg c s base w v).mem (subreg_addr c base i))
        = ((v % 2 ^ 64) >>> (8 * LITEX_SUBREG_SIZE c * (_litex_num_subregs c w - 1 - i)))
            % 2 ^ (8 * LITEX_SUBREG_ALIGN c) := by
    intro i hi
    rw [subreg_addr_eq c base i (by omega), wr_reg_mem c s base w v i h1 h8 hi, hram,
      ulong_eq, Nat.mod_mod, Nat.mul_comm (LITEX_SUBREG_SIZE c) 8]
  rw [rd_reg_val, hS]
  have h0 := hcell 0 (by omega)
  rw [subreg_addr_zero, Nat.sub_zero] at h0
  rw [h0]
  have hfold := fold_windows (v % 2 ^ 64) (8 * LITEX_SUBREG_SIZE c)
    (8 * LITEX_SUBREG_ALIGN c) (_litex_num_subregs c w - 1)
    (Nat.mod_lt _ (Nat.two_pow_pos 64)) (SIZE_BIT_le_BITS c)
    (_litex_num_subregs c w - 1) (Nat.le_refl _)
  rw [Nat.sub_self, Nat.mul_zero, Nat.shiftRight_zero] at hfold
  rw [← hfold]
  apply List.foldl_ext
  intro r i hi
  have hi' := List.mem_range'_1.mp hi
  rw [hcell i (by omega)]

/-- C1. For every configuration (`SW` 1 or 4, 32-bit or 64-bit pointers with
`SA` the pointer width), every base, every byte width from 1 to 8 (so 1, 2,
4 and 8) and every `v < 2 ^ (8 * byte_width)`, on a store whose cells keep
the word last written to them, `_litex_wr_reg(base, byte_width, v)` followed
by `_litex_rd_reg(base, byte_width)` returns `v`. -/
theorem C1_round_trip (c : Config) (s : Bus) (base byte_width v : Nat)
    (h1 : 1 ≤ byte_width) (h8 : byte_width ≤ 8)
    (hv : v < 2 ^ (8 * byte_width)) (hram : ∀ x, s.latch x = x) :
    (_litex_rd_reg c (_litex_wr_reg c s base byte_width v) base byte_width).1 = v := by
  obtain ⟨hN1, hN8⟩ := num_subregs_bounds c byte_width h1 h8
  obtain ⟨hlo, hhi⟩ := num_subregs_bits c byte_width h1 h8
  rw [rd_wr_ram c s base byte_width v h1 h8 hram]
  have hle : 8 * byte_width ≤ 64 := by omega
  have hv64 : v < 2 ^ 64 := Nat.lt_of_lt_of_le hv (Nat.pow_le_pow_right (by decide) hle)
  rw [Nat.mod_eq_of_lt hv64]
  apply Nat.mod_eq_of_lt
  apply Nat.lt_of_lt_of_le hv
  apply Nat.pow_le_pow_right (by decide)
  have hSB := SIZE_BIT_le_BITS c
  obtain ⟨k, hk⟩ : ∃ k, _litex_num_subregs c byte_width = k + 1 :=
    ⟨_litex_num_subregs c byte_width - 1, by omega⟩
  rw [hk] at hlo
  rw [hk, Nat.add_sub_cancel]
  have : (k + 1) * (8 * LITEX_SUBREG_SIZE c)
      = 8 * LITEX_SUBREG_SIZE c * k + 8 * LITEX_SUBREG_SIZE c := by ring
  omega

/-- C1 at `SW = 1` on a 64-bit platform, width 2, value `0xBEEF`. -/
theorem C1_round_trip_witness :
    (0xBEEF : Nat) < 2 ^ (8 * 2) ∧ (∀ x, ramBus.latch x = x) ∧
    (_litex_rd_reg ⟨SubregSize.one, true⟩
      (_litex_wr_reg ⟨SubregSize.one, true⟩ ramBus 64 2 0xBEEF) 64 2).1 = 0xBEEF :=
  ⟨by decide, fun _ => rfl,
    C1_round_trip ⟨SubregSize.one, true⟩ ramBus 64 2 0xBEEF (by decide) (by decide)
      (by decide) (fun _ => rfl)⟩

/-! ## Barrier bracketing -/

theorem rd_fold_trace (c : Config) (a : Nat) (l : List Nat) (p : Nat × Bus) :
    (l.foldl (_litex_rd_reg.body c a) p).2.trace = p.2.trace ++ rd_events c a l := by
  induction l generalizing p with
  | nil => simp [rd_events]
  | cons i l ih =>
    simp only [List.foldl_cons]
    rw [ih]
    simp [_litex_rd_reg.body, rd_events]

theorem wr_fold_trace (c : Config) (a ns v : Nat) (l : List Nat) (s : Bus) :
    (l.foldl (_litex_wr_reg.body c a ns v) s).trace = s.trace ++ wr_events c a ns v l := by
  induction l generalizing s with
  | nil => simp [wr_events]
  | cons i l ih =>
    simp only [List.foldl_cons]
    rw [ih]
    simp [_litex_wr_reg.body, wr_events]

theorem rd_reg_trace (c : Config) (s : Bus) (a w : Nat) :
    (_litex_rd_reg c s a w).2.trace
      = s.trace ++ rd_events c a (0 :: List.range' 1 (_litex_num_subregs c w - 1)) := by
  unfold _litex_rd_reg
  rw [rd_fold_trace]
  simp [rd_events, subreg_addr_zero]

theorem wr_reg_trace (c : Config) (s : Bus) (a w v : Nat) :
    (_litex_wr_reg c s a w v).trace
      = s.trace ++ wr_events c a (_litex_num_subregs c w) v
          (List.range (_litex_num_subregs c w)) := by
  unfold _litex_wr_reg
  exact wr_fold_trace c a _ v _ s

theorem fencedFrom_rd_events (c : Config) (a : Nat) (l : List Nat) (prev : Option Event) :
    fencedFrom prev (rd_events c a l) = true := by
  induction l generalizing prev with
  | nil => rfl
  | cons i l ih => simp [rd_events, fencedFrom, isAccess, isBarrier, ih]

theorem fencedFrom_wr_events (c : Config) (a ns v : Nat) (l : List Nat)
    (prev : Option Event) :
    fencedFrom prev (wr_events c a ns v l) = true := by
  induction l generalizing prev with
  | nil => rfl
  | cons i l ih => simp [wr_events, fencedFrom, isAccess, isBarrier, ih]

/-- C11. In the trace of barriers, loads and stores kept in program order,
every call of `_rd_ptr_w_barrier` appends exactly
`[barrier, load(addr), barrier]` and every call of `_wr_ptr_w_barrier` appends
exactly `[barrier, store(addr, value), barrier]`, `value` being the
`unsigned long` argument; hence among the events appended by any
`_litex_rd_reg` or `_litex_wr_reg` call every load and every store has a
barrier immediately before it and immediately after it. -/
theorem C11_barrier_bracketing (c : Config) (s : Bus) (addr value reg_size v : Nat) :
    (_rd_ptr_w_barrier c s addr).2.trace
      = s.trace ++ [Event.io_br, Event.load addr, Event.io_ar] ∧
    (_wr_ptr_w_barrier c s addr value).trace
      = s.trace ++ [Event.io_br, Event.store addr (ulong c value), Event.io_ar] ∧
    (value < 2 ^ BITS_PER_LONG c →
      (_wr_ptr_w_barrier c s addr value).trace
        = s.trace ++ [Event.io_br, Event.store addr value, Event.io_ar]) ∧
    isBarrier Event.io_br = true ∧ isBarrier Event.io_ar = true ∧
    (_litex_rd_reg c s addr reg_size).2.trace
      = s.trace ++ rd_events c addr (0 :: List.range' 1 (_litex_num_subregs c reg_size - 1)) ∧
    (_litex_wr_reg c s addr reg_size v).trace
      = s.trace ++ wr_events c addr (_litex_num_subregs c reg_size) v
          (List.range (_litex_num_subregs c reg_size)) ∧
    fenced ((_litex_rd_reg c s addr reg_size).2.trace.drop s.trace.length) = true ∧
    fenced ((_litex_wr_reg c s addr reg_size v).trace.drop s.trace.length) = true := by
  refine ⟨rd_ptr_trace c s addr, wr_ptr_trace c s addr value, ?_, rfl, rfl,
    rd_reg_trace c s addr reg_size, wr_reg_trace c s addr reg_size v, ?_, ?_⟩
  · intro h
    rw [wr_ptr_trace, ulong, Nat.mod_eq_of_lt h]
  · rw [rd_reg_trace, List.drop_left]
    exact fencedFrom_rd_events c addr _ none
  · rw [wr_reg_trace, List.drop_left]
    exact fencedFrom_wr_events c addr _ v _ none

/-- C11 at concrete inputs: a write of width 8 with `SW = 4` on a 32-bit
platform. -/
theorem C11_barrier_bracketing_witness :
    (0x55 : Nat) < 2 ^ BITS_PER_LONG ⟨SubregSize.four, false⟩ ∧
    (_wr_ptr_w_barrier ⟨SubregSize.four, false⟩ ramBus 8 0x55).trace
      = [Event.io_br, Event.store 8 0x55, Event.io_ar] ∧
    (_litex_wr_reg ⟨SubregSize.four, false⟩ ramBus 8 8 0x1122334455667788).trace
      = [Event.io_br, Event.store 8 0x11223344, Event.io_ar,
         Event.io_br, Event.store 12 0x55667788, Event.io_ar] :=
  ⟨by decide,
    (C11_barrier_bracketing ⟨SubregSize.four, false⟩ ramBus 8 0x55 8 0).2.2.1 (by decide),
    (C11_barrier_bracketing ⟨SubregSize.four, false⟩ ramBus 8 0x55 8
      0x1122334455667788).2.2.2.2.2.2.1.trans (by decide)⟩

/-! ## Neighbouring registers -/

/-- The read result depends only on the cells of the register read. -/
theorem rd_reg_val_congr_cells (c : Config) (s t : Bus) (a w : Nat)
    (hN : 1 ≤ _litex_num_subregs c w)
    (h : ∀ j, j < _litex_num_subregs c w →
      s.mem (subreg_addr c a j) = t.mem (subreg_addr c a j)) :
    (_litex_rd_reg c s a w).1 = (_litex_rd_reg c t a w).1 := by
  rw [rd_reg_val, rd_reg_val]
  have h0 := h 0 (by omega)
  rw [subreg_addr_zero] at h0
  rw [h0]
  apply List.foldl_ext
  intro r i hi
  have hi' := List.mem_range'_1.mp hi
  rw [h i (by omega)]

theorem wr_reg_mem_other (c : Config) (s : Bus) (a w v x : Nat)
    (h1 : 1 ≤ w) (h8 : w ≤ 8)
    (hx : ∀ i, i < _litex_num_subregs c w → x ≠ a + i * LITEX_SUBREG_ALIGN c) :
    (_litex_wr_reg c s a w v).mem x = s.mem x := by
  obtain ⟨hN1, hN8⟩ := num_subregs_bounds c w h1 h8
  unfold _litex_wr_reg
  apply wr_fold_mem_notin
  rw [map_subreg_addr_range c a _ hN8]
  intro hmem
  obtain ⟨i, hi, hie⟩ := List.mem_map.mp hmem
  exact hx i (List.mem_range.mp hi) hie.symm

/-! ## Round trip on a store that retains `SW` bytes per cell -/

/-- C15. For every configuration, base, byte width from 1 to 8 (multiple of
`SW` or not) with `N = _litex_num_subregs(byte_width)` and every value `v`,
on a store whose cells retain only the low `SW` bytes of each word written,
`_litex_wr_reg(base, byte_width, v)` followed by
`_litex_rd_reg(base, byte_width)` returns `v mod 2 ^ (8 * SW * N)`; so it
returns `v` when `v < 2 ^ (8 * byte_width)`, and bits of `v` above the
logical width but inside the top subregister come back: with `SW = 4`,
width 1 and `v = 0x1FF` the result is `0x1FF`. -/
theorem C15_round_trip_csr (c : Config) (s : Bus) (base byte_width v : Nat)
    (h1 : 1 ≤ byte_width) (h8 : byte_width ≤ 8)
    (hcsr : ∀ x, s.latch x = x % 2 ^ (8 * LITEX_SUBREG_SIZE c)) :
    (_litex_rd_reg c (_litex_wr_reg c s base byte_width v) base byte_width).1
      = (v % 2 ^ 64) % 2 ^ (8 * LITEX_SUBREG_SIZE c * _litex_num_subregs c byte_width) ∧
    (v < 2 ^ 64 →
      (_litex_rd_reg c (_litex_wr_reg c s base byte_width v) base byte_width).1
        = v % 2 ^ (8 * LITEX_SUBREG_SIZE c * _litex_num_subregs c byte_width)) ∧
    (v < 2 ^ (8 * byte_width) →
      (_litex_rd_reg c (_litex_wr_reg c s base byte_width v) base byte_width).1 = v) ∧
    (∀ b : Bool,
      (_litex_rd_reg ⟨SubregSize.four, b⟩
        (_litex_wr_reg ⟨SubregSize.four, b⟩ (csrBus ⟨SubregSize.four, b⟩) 0 1 0x1FF) 0 1).1
        = 0x1FF) := by
  obtain ⟨hN1, hN8⟩ := num_subregs_bounds c byte_width h1 h8
  obtain ⟨hlo, hhi⟩ := num_subregs_bits c byte_width h1 h8
  have hSB := SIZE_BIT_le_BITS c
  have hS : LITEX_SUBREG_SIZE_BIT c = 8 * LITEX_SUBREG_SIZE c := by
    unfold LITEX_SUBREG_SIZE_BIT
    exact Nat.mul_comm _ _
  have hdvd : 2 ^ (8 * LITEX_SUBREG_SIZE c) ∣ 2 ^ (8 * LITEX_SUBREG_ALIGN c) :=
    Nat.pow_dvd_pow 2 hSB
  have hcell : ∀ i, i < _litex_num_subregs c byte_width →
      ulong c ((_litex_wr_reg c s base byte_width v).mem (subreg_addr c base i))
        = ((v % 2 ^ 64) >>>
            (8 * LITEX_SUBREG_SIZE c * (_litex_num_subregs c byte_width - 1 - i)))
            % 2 ^ (8 * LITEX_SUBREG_SIZE c) := by
    intro i hi
    rw [subreg_addr_eq c base i (by omega), wr_reg_mem c s base byte_width v i h1 h8 hi,
      hcsr, ulong_eq, Nat.mod_mod_of_dvd _ hdvd, Nat.mul_comm (LITEX_SUBREG_SIZE c) 8]
    apply Nat.mod_eq_of_lt
    exact Nat.lt_of_lt_of_le (Nat.mod_lt _ (Nat.two_pow_pos _))
      (Nat.pow_le_pow_right (by decide) hSB)
  have hmain : (_litex_rd_reg c (_litex_wr_reg c s base byte_width v) base byte_width).1
      = (v % 2 ^ 64) % 2 ^ (8 * LITEX_SUBREG_SIZE c * _litex_num_subregs c byte_width) := by
    rw [rd_reg_val, hS]
    have h0 := hcell 0 (by omega)
    rw [subreg_addr_zero, Nat.sub_zero] at h0
    rw [h0]
    have hfold := fold_windows (v % 2 ^ 64) (8 * LITEX_SUBREG_SIZE c)
      (8 * LITEX_SUBREG_SIZE c) (_litex_num_subregs c byte_width - 1)
      (Nat.mod_lt _ (Nat.two_pow_pos 64)) (Nat.le_refl _)
      (_litex_num_subregs c byte_width - 1) (Nat.le_refl _)
    rw [Nat.sub_self, Nat.mul_zero, Nat.shiftRight_zero] at hfold
    have hexp : 8 * LITEX_SUBREG_SIZE c
          + 8 * LITEX_SUBREG_SIZE c * (_litex_num_subregs c byte_width - 1)
        = 8 * LITEX_SUBREG_SIZE c * _litex_num_subregs c byte_width := by
      obtain ⟨k, hk⟩ : ∃ k, _litex_num_subregs c byte_width = k + 1 :=
        ⟨_litex_num_subregs c byte_width - 1, by omega⟩
      rw [hk, Nat.add_sub_cancel]
      ring
    rw [hexp] at hfold
    rw [← hfold]
    apply List.foldl_ext
    intro r i hi
    have hi' := List.mem_range'_1.mp hi
    rw [hcell i (by omega)]
  refine ⟨hmain, ?_, ?_, ?_⟩
  · intro hv
    rw [hmain, Nat.mod_eq_of_lt hv]
  · intro hv
    rw [hmain]
    have hle : 8 * byte_width ≤ 64 := by omega
    have hv64 : v < 2 ^ 64 := Nat.lt_of_lt_of_le hv (Nat.pow_le_pow_right (by decide) hle)
    rw [Nat.mod_eq_of_lt hv64]
    apply Nat.mod_eq_of_lt
    apply Nat.lt_of_lt_of_le hv
    apply Nat.pow_le_pow_right (by decide)
    rw [Nat.mul_comm (8 * LITEX_SUBREG_SIZE c)]
    exact hlo
  · intro b
    cases b <;> decide

/-- C15 at concrete inputs: `SW = 4` on a 64-bit platform, width 6 (not a
multiple of `SW`), a value of 48 bits, and a value with bits above them. -/
theorem C15_round_trip_csr_witness :
    (∀ x, (csrBus ⟨SubregSize.four, true⟩).latch x
      = x % 2 ^ (8 * LITEX_SUBREG_SIZE ⟨SubregSize.four, true⟩)) ∧
    (0xA1B2C3D4E5F6 : Nat) < 2 ^ (8 * 6) ∧
    (_litex_rd_reg ⟨SubregSize.four, true⟩
      (_litex_wr_reg ⟨SubregSize.four, true⟩ (csrBus ⟨SubregSize.four, true⟩) 0 6
        0xA1B2C3D4E5F6) 0 6).1 = 0xA1B2C3D4E5F6 ∧
    (_litex_rd_reg ⟨SubregSize.four, true⟩
      (_litex_wr_reg ⟨SubregSize.four, true⟩ (csrBus ⟨SubregSize.four, true⟩) 0 6
        0x7788A1B2C3D4E5F6) 0 6).1 = 0x7788A1B2C3D4E5F6 :=
  ⟨fun _ => rfl, by decide,
    (C15_round_trip_csr ⟨SubregSize.four, true⟩ (csrBus ⟨SubregSize.four, true⟩) 0 6
      0xA1B2C3D4E5F6 (by decide) (by decide) (fun _ => rfl)).2.2.1 (by decide),
    ((C15_round_trip_csr ⟨SubregSize.four, true⟩ (csrBus ⟨SubregSize.four, true⟩) 0 6
      0x7788A1B2C3D4E5F6 (by decide) (by decide) (fun _ => rfl)).2.1 (by decide)).trans
      (by decide)⟩

/-! ## The read loop against the specified algorithm -/

theorem spec_fold_val (c : Config) (base : Nat) (l : List Nat) (p : Nat × Bus) :
    (l.foldl (fun (p : Nat × Bus) i =>
        let x := _rd_ptr_w_barrier c p.2 (base + i * LITEX_SUBREG_ALIGN c)
        (u64 (p.1 <<< (LITEX_SUBREG_SIZE c * 8)) ||| x.1, x.2)) p).1
      = l.foldl (fun r i => u64 (r <<< (LITEX_SUBREG_SIZE c * 8))
          ||| ulong c (p.2.mem (base + i * LITEX_SUBREG_ALIGN c))) p.1 ∧
    (l.foldl (fun (p : Nat × Bus) i =>
        let x := _rd_ptr_w_barrier c p.2 (base + i * LITEX_SUBREG_ALIGN c)
        (u64 (p.1 <<< (LITEX_SUBREG_SIZE c * 8)) ||| x.1, x.2)) p).2.mem = p.2.mem := by
  induction l generalizing p with
  | nil => simp
  | cons i l ih =>
    simp only [List.foldl_cons]
    obtain ⟨h1, h2⟩ := ih (u64 (p.1 <<< (LITEX_SUBREG_SIZE c * 8))
      ||| (_rd_ptr_w_barrier c p.2 (base + i * LITEX_SUBREG_ALIGN c)).1,
      (_rd_ptr_w_barrier c p.2 (base + i * LITEX_SUBREG_ALIGN c)).2)
    refine ⟨?_, ?_⟩
    · rw [h1]; rfl
    · rw [h2]; rfl

/-- The result of the specified algorithm as a function of the cells. -/
theorem spec_read_val (c : Config) (s : Bus) (base w : Nat) :
    (spec_read_register c s base w).1
      = (List.range (_litex_num_subregs c w)).foldl
          (fun r i => u64 (r <<< (LITEX_SUBREG_SIZE c * 8))
            ||| ulong c (s.mem (base + i * LITEX_SUBREG_ALIGN c))) 0 := by
  unfold spec_read_register
  exact (spec_fold_val c base _ (0, s)).1

/-- A run of iterations that read `0` shifts the accumulator left. -/
theorem fold_zero_run (S : Nat) (x : Nat → Nat) (l : List Nat) (r : Nat)
    (hx : ∀ i, i ∈ l → x i = 0) (hl : l ≠ []) :
    l.foldl (fun r i => u64 (r <<< S) ||| x i) r = (r * 2 ^ (S * l.length)) % 2 ^ 64 := by
  induction l generalizing r with
  | nil => exact absurd rfl hl
  | cons i l ih =>
    simp only [List.foldl_cons, List.length_cons]
    have hi : x i = 0 := hx i (List.mem_cons_self _ _)
    have hstep : u64 (r <<< S) ||| x i = (r * 2 ^ S) % 2 ^ 64 := by
      rw [hi, Nat.or_zero, u64, Nat.shiftLeft_eq]
    rw [hstep]
    by_cases hnil : l = []
    · subst hnil
      simp
    · rw [ih _ (fun j hj => hx j (List.mem_cons_of_mem _ hj)) hnil, Nat.mod_mul_mod]
      congr 1
      rw [Nat.mul_add, Nat.mul_one, Nat.pow_add]
      ring

/-- After at least `64 / S` iterations that read `0` the accumulator is `0`. -/
theorem fold_zero_run_zero (S : Nat) (x : Nat → Nat) (l : List Nat) (r : Nat)
    (hx : ∀ i, i ∈ l → x i = 0) (hlen : 64 ≤ S * l.length) :
    l.foldl (fun r i => u64 (r <<< S) ||| x i) r = 0 := by
  have hl : l ≠ [] := by
    intro h
    rw [h] at hlen
    simp at hlen
  rw [fold_zero_run S x l r hx hl]
  obtain ⟨k, hk⟩ := Nat.pow_dvd_pow 2 hlen
  rw [hk, ← Nat.mul_assoc, Nat.mul_comm r, Nat.mul_assoc]
  exact Nat.mul_mod_right _ _

theorem rd_body_eq_spec (c : Config) (base i : Nat) (p : Nat × Bus)
    (hi : i * LITEX_SUBREG_ALIGN c < 2 ^ 32) :
    _litex_rd_reg.body c base p i
      = (u64 (p.1 <<< (LITEX_SUBREG_SIZE c * 8))
          ||| (_rd_ptr_w_barrier c p.2 (base + i * LITEX_SUBREG_ALIGN c)).1,
        (_rd_ptr_w_barrier c p.2 (base + i * LITEX_SUBREG_ALIGN c)).2) := by
  have ha : subreg_addr c base i = base + i * LITEX_SUBREG_ALIGN c := by
    unfold subreg_addr u32
    rw [Nat.mod_eq_of_lt hi]
  unfold _litex_rd_reg.body
  rw [ha]
  rfl

/-- The implemented loop and the specified one coincide, value and state,
when no subregister offset wraps in `u32`. -/
theorem rd_reg_eq_spec (c : Config) (s : Bus) (base w : Nat)
    (hN : 1 ≤ _litex_num_subregs c w)
    (hw : (_litex_num_subregs c w - 1) * LITEX_SUBREG_ALIGN c < 2 ^ 32) :
    _litex_rd_reg c s base w = spec_read_register c s base w := by
  unfold _litex_rd_reg spec_read_register
  rw [range_eq_cons _ hN, List.foldl_cons]
  have h0 : (u64 ((0 : Nat) <<< (LITEX_SUBREG_SIZE c * 8))
        ||| (_rd_ptr_w_barrier c s (base + 0 * LITEX_SUBREG_ALIGN c)).1,
      (_rd_ptr_w_barrier c s (base + 0 * LITEX_SUBREG_ALIGN c)).2)
      = _rd_ptr_w_barrier c s base := by
    rw [Nat.zero_mul, Nat.add_zero, Nat.zero_shiftLeft]
    apply Prod.ext
    · show u64 0 ||| _ = _
      unfold u64
      rw [Nat.zero_mod, Nat.zero_or]
    · rfl
  show _ = List.foldl _ (u64 ((0 : Nat) <<< (LITEX_SUBREG_SIZE c * 8))
        ||| (_rd_ptr_w_barrier c s (base + 0 * LITEX_SUBREG_ALIGN c)).1,
      (_rd_ptr_w_barrier c s (base + 0 * LITEX_SUBREG_ALIGN c)).2) _
  rw [h0]
  apply List.foldl_ext
  intro p i hi
  have hi' := List.mem_range'_1.mp hi
  apply rd_body_eq_spec
  have hle : i * LITEX_SUBREG_ALIGN c
      ≤ (_litex_num_subregs c w - 1) * LITEX_SUBREG_ALIGN c :=
    Nat.mul_le_mul_right _ (by omega)
  omega

/-- C12, as stated, fails. With `SW = 1` on a 64-bit platform (`SA = 8`) and
`byte_width = 2 ^ 29 + 1`, the last iteration has `i = 2 ^ 29`, whose offset
`i * LITEX_SUBREG_ALIGN` is `2 ^ 32` and wraps to 0 in `u32`: the implemented
loop reads the cell at `base` again, the specified one the cell at
`base + 2 ^ 32`. On the store holding 1 at address 0 and 0 elsewhere,
`_litex_rd_reg(0, 2 ^ 29 + 1)` returns 1 and the specified algorithm
returns 0. -/
theorem C12_counterexample :
    (_litex_rd_reg ⟨SubregSize.one, true⟩
        (_wr_ptr_w_barrier ⟨SubregSize.one, true⟩ ramBus 0 1) 0 536870913).1 = 1 ∧
    (spec_read_register ⟨SubregSize.one, true⟩
        (_wr_ptr_w_barrier ⟨SubregSize.one, true⟩ ramBus 0 1) 0 536870913).1 = 0 := by
  have hN : _litex_num_subregs ⟨SubregSize.one, true⟩ 536870913 = 536870913 := by decide
  have hA : LITEX_SUBREG_ALIGN ⟨SubregSize.one, true⟩ = 8 := rfl
  have hS : LITEX_SUBREG_SIZE ⟨SubregSize.one, true⟩ = 1 := rfl
  have hm0 : (_wr_ptr_w_barrier ⟨SubregSize.one, true⟩ ramBus 0 1).mem 0 = 1 := by decide
  have hmx : ∀ x, x ≠ 0 → (_wr_ptr_w_barrier ⟨SubregSize.one, true⟩ ramBus 0 1).mem x = 0 := by
    intro x hx
    rw [wr_ptr_mem]
    exact Function.update_noteq hx _ _
  constructor
  · rw [rd_reg_val, hN]
    have hsplit : (536870913 - 1 : Nat) = 536870911 + 1 := by decide
    rw [hsplit, List.range'_1_concat, List.foldl_append]
    have hzero : ∀ i, i ∈ List.range' 1 536870911 →
        ulong ⟨SubregSize.one, true⟩
          ((_wr_ptr_w_barrier ⟨SubregSize.one, true⟩ ramBus 0 1).mem
            (subreg_addr ⟨SubregSize.one, true⟩ 0 i)) = 0 := by
      intro i hi
      have hi' := List.mem_range'_1.mp hi
      have hne : subreg_addr ⟨SubregSize.one, true⟩ 0 i ≠ 0 := by
        unfold subreg_addr u32
        rw [hA]
        omega
      rw [hmx _ hne]
      rfl
    have hlen : 64 ≤ LITEX_SUBREG_SIZE_BIT ⟨SubregSize.one, true⟩
        * (List.range' 1 536870911).length := by
      rw [List.length_range']
      decide
    rw [fold_zero_run_zero (LITEX_SUBREG_SIZE_BIT ⟨SubregSize.one, true⟩) _ _ _ hzero hlen]
    decide
  · rw [spec_read_val, hN, range_eq_cons 536870913 (by decide), List.foldl_cons]
    have hzero : ∀ i, i ∈ List.range' 1 (536870913 - 1) →
        ulong ⟨SubregSize.one, true⟩
          ((_wr_ptr_w_barrier ⟨SubregSize.one, true⟩ ramBus 0 1).mem
            (0 + i * LITEX_SUBREG_ALIGN ⟨SubregSize.one, true⟩)) = 0 := by
      intro i hi
      have hi' := List.mem_range'_1.mp hi
      have hne : 0 + i * LITEX_SUBREG_ALIGN ⟨SubregSize.one, true⟩ ≠ 0 := by
        rw [hA]
        omega
      rw [hmx _ hne]
      rfl
    have hlen : 64 ≤ LITEX_SUBREG_SIZE ⟨SubregSize.one, true⟩ * 8
        * (List.range' 1 (536870913 - 1)).length := by
      rw [List.length_range']
      decide
    exact fold_zero_run_zero (LITEX_SUBREG_SIZE ⟨SubregSize.one, true⟩ * 8) _ _ _ hzero hlen

/-- C12, amended. For both subregister sizes, every store state, base and
32-bit `byte_width ≥ 1` with `N = _litex_num_subregs(byte_width)` such that
the largest subregister offset `(N - 1) * SA` is below `2 ^ 32` (so for every
byte width from 1 to `2 ^ 29`, and in particular 1 to 8), `_litex_rd_reg`,
which reads the first subregister before the loop and loops from `i = 1`,
returns the same 64-bit value, and leaves the same state, as the specified
algorithm that starts from `result = 0` and for `i = 0 .. N - 1` sets
`result = (result << SW * 8) | read_subregister(base + i * SA)` modulo
`2 ^ 64`. -/
theorem C12_read_refines_spec (c : Config) (s : Bus) (base byte_width : Nat)
    (h1 : 1 ≤ byte_width) (h2 : byte_width < 2 ^ 32)
    (hw : (_litex_num_subregs c byte_width - 1) * LITEX_SUBREG_ALIGN c < 2 ^ 32) :
    (_litex_rd_reg c s base byte_width).1 = (spec_read_register c s base byte_width).1 ∧
    _litex_rd_reg c s base byte_width = spec_read_register c s base byte_width ∧
    (∀ w, 1 ≤ w → w ≤ 2 ^ 29 →
      (_litex_num_subregs c w - 1) * LITEX_SUBREG_ALIGN c < 2 ^ 32) := by
  have hN : 1 ≤ _litex_num_subregs c byte_width := by
    rw [num_subregs_eq c byte_width h1 h2]
    exact Nat.le_add_left 1 _
  have heq := rd_reg_eq_spec c s base byte_width hN hw
  refine ⟨by rw [heq], heq, ?_⟩
  intro w hw1 hw29
  have h29 : (2 : Nat) ^ 29 < 2 ^ 32 := by decide
  rw [num_subregs_eq c w hw1 (by omega), Nat.add_sub_cancel]
  have hdiv : (w - 1) / LITEX_SUBREG_SIZE c ≤ 2 ^ 29 - 1 :=
    Nat.le_trans (Nat.div_le_self _ _) (by omega)
  have hA : LITEX_SUBREG_ALIGN c ≤ 8 := by
    rcases LITEX_SUBREG_ALIGN_cases c with h | h <;> omega
  calc (w - 1) / LITEX_SUBREG_SIZE c * LITEX_SUBREG_ALIGN c
      ≤ (2 ^ 29 - 1) * 8 := Nat.mul_le_mul hdiv hA
    _ < 2 ^ 32 := by decide

/-- C12, amended, at concrete inputs: `SW = 1`, `SA = 4`, width 4 over cells
holding `0xAA`, `0xBB`, `0xCC`, `0xDD`. -/
theorem C12_read_refines_spec_witness :
    (_litex_num_subregs ⟨SubregSize.one, false⟩ 4 - 1)
      * LITEX_SUBREG_ALIGN ⟨SubregSize.one, false⟩ < 2 ^ 32 ∧
    (spec_read_register ⟨SubregSize.one, false⟩
      (_litex_wr_reg ⟨SubregSize.one, false⟩ (csrBus ⟨SubregSize.one, false⟩) 0 4
        0xAABBCCDD) 0 4).1 = 0xAABBCCDD ∧
    (_litex_rd_reg ⟨SubregSize.one, false⟩
      (_litex_wr_reg ⟨SubregSize.one, false⟩ (csrBus ⟨SubregSize.one, false⟩) 0 4
        0xAABBCCDD) 0 4).1 = 0xAABBCCDD :=
  ⟨by decide, by decide,
    ((C12_read_refines_spec ⟨SubregSize.one, false⟩
      (_litex_wr_reg ⟨SubregSize.one, false⟩ (csrBus ⟨SubregSize.one, false⟩) 0 4
        0xAABBCCDD) 0 4 (by decide) (by decide) (by decide)).1).trans (by decide)⟩

/-! ## Neighbouring registers laid out by `_next_reg_off` -/

theorem next_reg_off_mod (c : Config) (off w : Nat) (h1 : 1 ≤ w) (h8 : w ≤ 8) :
    _next_reg_off c off w
      = (off + _litex_num_subregs c w * LITEX_SUBREG_ALIGN c) % 2 ^ 32 := by
  obtain ⟨hN1, hN8⟩ := num_subregs_bounds c w h1 h8
  unfold _next_reg_off u32
  have hin : _litex_num_subregs c w * LITEX_SUBREG_ALIGN c % 2 ^ 32
      = _litex_num_subregs c w * LITEX_SUBREG_ALIGN c := by
    apply Nat.mod_eq_of_lt
    rcases LITEX_SUBREG_ALIGN_cases c with h | h <;> rw [h] <;> omega
  rw [hin]

/-- C13. For every configuration, offset `off` and byte widths `w1`, `w2`
from 1 to 8: `_litex_wr_reg` at `off` with width `w1` leaves every cell
other than those at `off + i * SA`, `i < _litex_num_subregs(w1)`, unchanged;
the register placed at `off2 = _next_reg_off(off, w1)` starts right after
these cells (at `off + N * SA`, reduced modulo `2 ^ 32` by the 32-bit
arithmetic of the macro), `_litex_rd_reg(off2, w2)` returns the same value
before and after that write, and a write to the register at `off2` does not
change what `_litex_rd_reg(off, w1)` returns. -/
theorem C13_no_interference (c : Config) (s : Bus) (off w1 w2 v : Nat)
    (h1 : 1 ≤ w1) (h8 : w1 ≤ 8) (h1' : 1 ≤ w2) (h8' : w2 ≤ 8) :
    (∀ x, (∀ i, i < _litex_num_subregs c w1 → x ≠ off + i * LITEX_SUBREG_ALIGN c) →
      (_litex_wr_reg c s off w1 v).mem x = s.mem x) ∧
    _next_reg_off c off w1
      = (off + _litex_num_subregs c w1 * LITEX_SUBREG_ALIGN c) % 2 ^ 32 ∧
    (off + _litex_num_subregs c w1 * LITEX_SUBREG_ALIGN c < 2 ^ 32 →
      _next_reg_off c off w1 = off + _litex_num_subregs c w1 * LITEX_SUBREG_ALIGN c) ∧
    (_litex_rd_reg c (_litex_wr_reg c s off w1 v) (_next_reg_off c off w1) w2).1
      = (_litex_rd_reg c s (_next_reg_off c off w1) w2).1 ∧
    (_litex_rd_reg c (_litex_wr_reg c s (_next_reg_off c off w1) w2 v) off w1).1
      = (_litex_rd_reg c s off w1).1 := by
  obtain ⟨hN1, hN8⟩ := num_subregs_bounds c w1 h1 h8
  obtain ⟨hM1, hM8⟩ := num_subregs_bounds c w2 h1' h8'
  have hoff := next_reg_off_mod c off w1 h1 h8
  have hdisj : ∀ i j, i < _litex_num_subregs c w1 → j < 8 →
      (off + _litex_num_subregs c w1 * LITEX_SUBREG_ALIGN c) % 2 ^ 32
          + j * LITEX_SUBREG_ALIGN c
        ≠ off + i * LITEX_SUBREG_ALIGN c := by
    intro i j hi hj
    rcases LITEX_SUBREG_ALIGN_cases c with h | h <;> rw [h] <;> omega
  refine ⟨fun x hx => wr_reg_mem_other c s off w1 v x h1 h8 hx, hoff, ?_, ?_, ?_⟩
  · intro hfit
    rw [hoff, Nat.mod_eq_of_lt hfit]
  · rw [hoff]
    apply rd_reg_val_congr_cells c _ _ _ w2 hM1
    intro j hj
    rw [subreg_addr_eq c _ j (by omega)]
    exact wr_reg_mem_other c s off w1 v _ h1 h8 (fun i hi => hdisj i j hi (by omega))
  · rw [hoff]
    apply rd_reg_val_congr_cells c _ _ _ w1 hN1
    intro i hi
    rw [subreg_addr_eq c _ i (by omega)]
    exact wr_reg_mem_other c s _ w2 v _ h1' h8'
      (fun j hj => (hdisj i j hi (by omega)).symm)

/-- C13 at concrete inputs: `SW = 1`, `SA = 4`, a 2-byte register at 16 and
a 4-byte register right after it, at 24. -/
theorem C13_no_interference_witness :
    16 + _litex_num_subregs ⟨SubregSize.one, false⟩ 2
        * LITEX_SUBREG_ALIGN ⟨SubregSize.one, false⟩ < 2 ^ 32 ∧
    _next_reg_off ⟨SubregSize.one, false⟩ 16 2 = 24 ∧
    (_litex_rd_reg ⟨SubregSize.one, false⟩
        (_litex_wr_reg ⟨SubregSize.one, false⟩
          (_litex_wr_reg ⟨SubregSize.one, false⟩ ramBus 24 4 0xAABBCCDD) 16 2 0x1234)
        (_next_reg_off ⟨SubregSize.one, false⟩ 16 2) 4).1
      = 0xAABBCCDD :=
  ⟨by decide,
    ((C13_no_interference ⟨SubregSize.one, false⟩ ramBus 16 2 4 0x1234
      (by decide) (by decide) (by decide) (by decide)).2.2.1 (by decide)).trans (by decide),
    ((C13_no_interference ⟨SubregSize.one, false⟩
      (_litex_wr_reg ⟨SubregSize.one, false⟩ ramBus 24 4 0xAABBCCDD) 16 2 4 0x1234
      (by decide) (by decide) (by decide) (by decide)).2.2.2.1).trans (by decide)⟩

/-! ## Shift amounts of the write loop -/

/-- The checked loop runs the loop body on every index once all shift amounts
are in range. -/
theorem checked_loop_some (c : Config) (a ns v : Nat) (l : List Nat) (s : Bus)
    (h : ∀ i, i ∈ l → _litex_wr_reg.shift c ns i < 64) :
    _litex_wr_reg.checked_loop c a ns v l s
      = some (l.foldl (_litex_wr_reg.body c a ns v) s) := by
  induction l generalizing s with
  | nil => rfl
  | cons i l ih =>
    simp only [_litex_wr_reg.checked_loop, List.foldl_cons]
    rw [if_pos (h i (List.mem_cons_self _ _))]
    exact ih _ (fun j hj => h j (List.mem_cons_of_mem _ hj))

theorem shift_lt_64 (c : Config) (w i : Nat) (h1 : 1 ≤ w) (h8 : w ≤ 8)
    (hi : i < _litex_num_subregs c w) :
    _litex_wr_reg.shift c (_litex_num_subregs c w) i < 64 := by
  obtain ⟨hN1, hN8⟩ := num_subregs_bounds c w h1 h8
  obtain ⟨_, hbits⟩ := num_subregs_bits c w h1 h8
  rw [shift_eq c _ i hi hN8]
  have hlt : _litex_num_subregs c w - 1 - i < _litex_num_subregs c w := by omega
  have hpos : 0 < 8 * LITEX_SUBREG_SIZE c := by
    rcases LITEX_SUBREG_SIZE_cases c with h | h <;> omega
  calc 8 * LITEX_SUBREG_SIZE c * (_litex_num_subregs c w - 1 - i)
      < 8 * LITEX_SUBREG_SIZE c * _litex_num_subregs c w :=
        Nat.mul_lt_mul_of_pos_left hlt hpos
    _ = _litex_num_subregs c w * (8 * LITEX_SUBREG_SIZE c) := Nat.mul_comm _ _
    _ ≤ 64 := hbits

/-- C14. For both subregister sizes and every byte width from 1 to 8, with
`ns = _litex_num_subregs(byte_width)`: the loop of `_litex_wr_reg` performs
exactly the shifts by `LITEX_SUBREG_SIZE_BIT * (ns - 1 - i)` for
`i = 0 .. ns - 1` (one per store); each such `i` satisfies `i ≤ ns - 1`, the
`u32` expression `ns - 1 - i` does not wrap, and the shift amount is below
64, so `_litex_wr_reg` with every shift checked completes with the very
result of `_litex_wr_reg`. At byte width 9 the shift amount of the first
iteration is 64 and the checked function has no result. -/
theorem C14_shift_defined (c : Config) (s : Bus) (a byte_width v i : Nat)
    (h1 : 1 ≤ byte_width) (h8 : byte_width ≤ 8)
    (hi : i < _litex_num_subregs c byte_width) :
    _litex_wr_reg.checked c s a byte_width v = some (_litex_wr_reg c s a byte_width v) ∧
    stores (_litex_wr_reg c s a byte_width v).trace
      = stores s.trace ++ (List.range (_litex_num_subregs c byte_width)).map (fun j =>
          (subreg_addr c a j,
            ulong c (u64 v >>> _litex_wr_reg.shift c (_litex_num_subregs c byte_width) j))) ∧
    (∀ j, j ∈ List.range (_litex_num_subregs c byte_width) →
      _litex_wr_reg.shift c (_litex_num_subregs c byte_width) j < 64) ∧
    i ≤ _litex_num_subregs c byte_width - 1 ∧
    u32_sub (u32_sub (_litex_num_subregs c byte_width) 1) i
      = _litex_num_subregs c byte_width - 1 - i ∧
    _litex_wr_reg.shift c (_litex_num_subregs c byte_width) i
      = LITEX_SUBREG_SIZE_BIT c * (_litex_num_subregs c byte_width - 1 - i) ∧
    _litex_wr_reg.shift c (_litex_num_subregs c byte_width) i < 64 ∧
    (∀ (c' : Config) (s' : Bus) (a' v' : Nat),
      64 ≤ _litex_wr_reg.shift c' (_litex_num_subregs c' 9) 0 ∧
      _litex_wr_reg.checked c' s' a' 9 v' = none) := by
  obtain ⟨hN1, hN8⟩ := num_subregs_bounds c byte_width h1 h8
  have hsh := shift_eq c _ i hi hN8
  have h2 : (8 : Nat) < 2 ^ 32 := by decide
  have hall : ∀ j, j ∈ List.range (_litex_num_subregs c byte_width) →
      _litex_wr_reg.shift c (_litex_num_subregs c byte_width) j < 64 :=
    fun j hj => shift_lt_64 c byte_width j h1 h8 (List.mem_range.mp hj)
  refine ⟨?_, ?_, hall, by omega, ?_, ?_, shift_lt_64 c byte_width i h1 h8 hi, ?_⟩
  · show _litex_wr_reg.checked_loop c a (_litex_num_subregs c byte_width) v
      (List.range (_litex_num_subregs c byte_width)) s = some _
    rw [checked_loop_some c a _ v _ s hall]
    rfl
  · unfold _litex_wr_reg
    exact wr_fold_stores c a _ v _ s
  · rw [u32_sub_eq _ 1 (by omega) (by omega), u32_sub_eq _ i (by omega) (by omega)]
  · rw [hsh]
    unfold LITEX_SUBREG_SIZE_BIT
    rw [Nat.mul_comm (LITEX_SUBREG_SIZE c) 8]
  · intro c' s' a' v'
    have h64 : 64 ≤ _litex_wr_reg.shift c' (_litex_num_subregs c' 9) 0 := by
      obtain ⟨sw, b⟩ := c'
      cases sw <;> cases b <;> decide
    have hN : 1 ≤ _litex_num_subregs c' 9 := by
      obtain ⟨sw, b⟩ := c'
      cases sw <;> cases b <;> decide
    refine ⟨h64, ?_⟩
    show _litex_wr_reg.checked_loop c' a' (_litex_num_subregs c' 9) v'
      (List.range (_litex_num_subregs c' 9)) s' = none
    rw [range_eq_cons _ hN]
    simp only [_litex_wr_reg.checked_loop]
    rw [if_neg (by omega)]

/-- C14 at `SW = 4`, width 8: shifts by 32 and 0, and the checked write
completes with the result of `_litex_wr_reg`. -/
theorem C14_shift_defined_witness :
    (0 : Nat) < _litex_num_subregs ⟨SubregSize.four, false⟩ 8 ∧
    _litex_wr_reg.shift ⟨SubregSize.four, false⟩
      (_litex_num_subregs ⟨SubregSize.four, false⟩ 8) 0 = 32 ∧
    _litex_wr_reg.shift ⟨SubregSize.four, false⟩
      (_litex_num_subregs ⟨SubregSize.four, false⟩ 8) 0 < 64 ∧
    _litex_wr_reg.checked ⟨SubregSize.four, false⟩ ramBus 0 8 0x1122334455667788
      = some (_litex_wr_reg ⟨SubregSize.four, false⟩ ramBus 0 8 0x1122334455667788) :=
  ⟨by decide, by decide,
    (C14_shift_defined ⟨SubregSize.four, false⟩ ramBus 0 8 0x1122334455667788 0
      (by decide) (by decide) (by decide)).2.2.2.2.2.2.1,
    (C14_shift_defined ⟨SubregSize.four, false⟩ ramBus 0 8 0x1122334455667788 0
      (by decide) (by decide) (by decide)).1⟩

/-! ## Offset of the next register -/

/-- The count times the stride is at least the size. -/
theorem size_le_count_mul_align (c : Config) (size : Nat) (h1 : 1 ≤ size) :
    size ≤ ((size - 1) / LITEX_SUBREG_SIZE c + 1) * LITEX_SUBREG_ALIGN c := by
  rcases LITEX_SUBREG_SIZE_cases c with h | h <;>
    rcases LITEX_SUBREG_ALIGN_cases c with h' | h' <;> rw [h, h'] <;> omega

theorem is_int_of_bounds (x : Int) (h1 : -(2 : Int) ^ 31 ≤ x) (h2 : x < (2 : Int) ^ 31) :
    is_int x = true := by
  unfold is_int
  rw [decide_eq_true h1, decide_eq_true h2]
  rfl

/-- The integer ceiling of `size / SW` for a natural `size ≥ 1`. -/
theorem int_ceil_div_eq (c : Config) (n : Nat) (h1 : 1 ≤ n) :
    ⌈(n : ℚ) / (LITEX_SUBREG_SIZE c : ℚ)⌉
      = (((n - 1) / LITEX_SUBREG_SIZE c + 1 : Nat) : Int) := by
  have hpos : 0 < LITEX_SUBREG_SIZE c := by
    rcases LITEX_SUBREG_SIZE_cases c with h | h <;> omega
  rw [← ceil_div_eq n _ h1 hpos]
  exact (Int.natCast_ceil_eq_ceil (by positivity)).symm

/-- The macro at `int`, when nothing overflows. -/
theorem next_reg_off_int_eq (c : Config) (off : Int) (n : Nat) (h1 : 1 ≤ n)
    (hoff : -(2 : Int) ^ 31 ≤ off)
    (hm : ((((n - 1) / LITEX_SUBREG_SIZE c + 1) * LITEX_SUBREG_ALIGN c : Nat) : Int)
      < (2 : Int) ^ 31)
    (hr : off + ((((n - 1) / LITEX_SUBREG_SIZE c + 1) * LITEX_SUBREG_ALIGN c : Nat) : Int)
      < (2 : Int) ^ 31) :
    _next_reg_off_int c off (n : Int)
      = some (off + ((((n - 1) / LITEX_SUBREG_SIZE c + 1) * LITEX_SUBREG_ALIGN c : Nat) : Int)) := by
  have hle := size_le_count_mul_align c n h1
  have hApos : 1 ≤ LITEX_SUBREG_ALIGN c := by
    rcases LITEX_SUBREG_ALIGN_cases c with h | h <;> omega
  have hcnt : (n - 1) / LITEX_SUBREG_SIZE c + 1
      ≤ ((n - 1) / LITEX_SUBREG_SIZE c + 1) * LITEX_SUBREG_ALIGN c :=
    Nat.le_mul_of_pos_right _ hApos
  have hd : ((n : Int) - 1) = ((n - 1 : Nat) : Int) := by omega
  have hn : Int.tdiv ((n : Int) - 1) (LITEX_SUBREG_SIZE c) + 1
      = (((n - 1) / LITEX_SUBREG_SIZE c + 1 : Nat) : Int) := by
    rw [hd]
    push_cast
    rfl
  have hmul : (((n - 1) / LITEX_SUBREG_SIZE c + 1 : Nat) : Int) * (LITEX_SUBREG_ALIGN c : Int)
      = ((((n - 1) / LITEX_SUBREG_SIZE c + 1) * LITEX_SUBREG_ALIGN c : Nat) : Int) := by
    push_cast
    rfl
  have key : _next_reg_off_int c off (n : Int)
      = if (is_int off && is_int (n : Int) && is_int ((n : Int) - 1)
          && is_int (Int.tdiv ((n : Int) - 1) (LITEX_SUBREG_SIZE c) + 1)
          && is_int ((Int.tdiv ((n : Int) - 1) (LITEX_SUBREG_SIZE c) + 1)
              * (LITEX_SUBREG_ALIGN c))
          && is_int (off + (Int.tdiv ((n : Int) - 1) (LITEX_SUBREG_SIZE c) + 1)
              * (LITEX_SUBREG_ALIGN c))) = true
        then some (off + (Int.tdiv ((n : Int) - 1) (LITEX_SUBREG_SIZE c) + 1)
              * (LITEX_SUBREG_ALIGN c))
        else none := rfl
  rw [key, hn, hmul]
  generalize hq : (((n - 1) / LITEX_SUBREG_SIZE c + 1 : Nat) : Int) = q at *
  generalize hmm : ((((n - 1) / LITEX_SUBREG_SIZE c + 1) * LITEX_SUBREG_ALIGN c : Nat) : Int)
    = m at *
  have hq1 : (1 : Int) ≤ q := by
    rw [← hq]
    exact_mod_cast Nat.le_add_left 1 _
  have hqm : q ≤ m := by
    rw [← hq, ← hmm]
    exact_mod_cast hcnt
  have hnm : (n : Int) ≤ m := by
    rw [← hmm]
    exact_mod_cast hle
  have hn1 : (1 : Int) ≤ (n : Int) := by exact_mod_cast h1
  have c1 : is_int off = true := is_int_of_bounds _ hoff (by linarith)
  have c2 : is_int (n : Int) = true := is_int_of_bounds _ (by linarith) (by linarith)
  have c3 : is_int ((n : Int) - 1) = true := is_int_of_bounds _ (by linarith) (by linarith)
  have c4 : is_int q = true := is_int_of_bounds _ (by linarith) (by linarith)
  have c5 : is_int m = true := is_int_of_bounds _ (by linarith) hm
  have c6 : is_int (off + m) = true := is_int_of_bounds _ (by linarith) hr
  rw [c1, c2, c3, c4, c5, c6]
  rfl

/-- C6, as stated, fails. On a 64-bit platform with `SW = 1` (`SA = 8`),
`_next_reg_off(0, 2 ^ 29 + 1)` multiplies the count `2 ^ 29 + 1` by 8 in
32-bit arithmetic, which wraps, and yields 8, while
`off + ceil(size / SW) * SA` is `2 ^ 32 + 8`. With operands of type `int`,
`_next_reg_off(2147483644, 4)` at `SW = 4`, `SA = 4` has no defined value,
the sum `2 ^ 31` being above `INT_MAX`. -/
theorem C6_counterexample :
    _next_reg_off ⟨SubregSize.one, true⟩ 0 536870913 = 8 ∧
    0 + ⌈((536870913 : Nat) : ℚ) / (LITEX_SUBREG_SIZE ⟨SubregSize.one, true⟩ : ℚ)⌉₊
        * LITEX_SUBREG_ALIGN ⟨SubregSize.one, true⟩ = 4294967304 ∧
    _next_reg_off_int ⟨SubregSize.four, false⟩ 2147483644 4 = none := by
  refine ⟨by decide, ?_, by decide⟩
  rw [ceil_div_eq 536870913 _ (by decide) (by decide)]
  decide

/-- C6, amended. For both subregister sizes and both alignments, every
offset and every `size ≥ 1` for which the fixed-width arithmetic of the macro
does not overflow, `_next_reg_off(off, size)` is `off + ceil(size / SW) * SA`:
with 32-bit unsigned operands when `off + ceil(size / SW) * SA` is below
`2 ^ 32`, with `int` operands (and any `int` offset, negative or not) when
`ceil(size / SW) * SA` and `off + ceil(size / SW) * SA` are at most
`INT_MAX`. `_next_reg_off(0, 4)` is 4 when `SW = 4`, `SA = 4` and 16 when
`SW = 1`, `SA = 4`. -/
theorem C6_next_reg_off (c : Config) (off size : Nat) (h1 : 1 ≤ size)
    (hfit : off + ⌈(size : ℚ) / (LITEX_SUBREG_SIZE c : ℚ)⌉₊ * LITEX_SUBREG_ALIGN c
      < 2 ^ 32) :
    _next_reg_off c off size
      = off + ⌈(size : ℚ) / (LITEX_SUBREG_SIZE c : ℚ)⌉₊ * LITEX_SUBREG_ALIGN c ∧
    (∀ offi : Int, -(2 : Int) ^ 31 ≤ offi →
      ⌈(size : ℚ) / (LITEX_SUBREG_SIZE c : ℚ)⌉ * (LITEX_SUBREG_ALIGN c : Int) < (2 : Int) ^ 31 →
      offi + ⌈(size : ℚ) / (LITEX_SUBREG_SIZE c : ℚ)⌉ * (LITEX_SUBREG_ALIGN c : Int)
        < (2 : Int) ^ 31 →
      _next_reg_off_int c offi (size : Int)
        = some (offi
            + ⌈(size : ℚ) / (LITEX_SUBREG_SIZE c : ℚ)⌉ * (LITEX_SUBREG_ALIGN c : Int))) ∧
    _next_reg_off ⟨SubregSize.four, false⟩ 0 4 = 4 ∧
    _next_reg_off ⟨SubregSize.one, false⟩ 0 4 = 16 ∧
    _next_reg_off_int ⟨SubregSize.four, false⟩ 0 4 = some 4 ∧
    _next_reg_off_int ⟨SubregSize.one, false⟩ 0 4 = some 16 := by
  refine ⟨?_, ?_, by decide, by decide, by decide, by decide⟩
  · have hpos : 0 < LITEX_SUBREG_SIZE c := by
      rcases LITEX_SUBREG_SIZE_cases c with h | h <;> omega
    rw [ceil_div_eq size _ h1 hpos] at hfit ⊢
    have hle := size_le_count_mul_align c size h1
    have hsz : size < 2 ^ 32 := by omega
    unfold _next_reg_off
    rw [num_subregs_eq c size h1 hsz]
    unfold u32
    have hin : ((size - 1) / LITEX_SUBREG_SIZE c + 1) * LITEX_SUBREG_ALIGN c % 2 ^ 32
        = ((size - 1) / LITEX_SUBREG_SIZE c + 1) * LITEX_SUBREG_ALIGN c :=
      Nat.mod_eq_of_lt (by omega)
    rw [hin, Nat.mod_eq_of_lt hfit]
  · intro offi hoff hm hr
    rw [int_ceil_div_eq c size h1, ← Nat.cast_mul] at hm hr ⊢
    exact next_reg_off_int_eq c offi size h1 hoff hm hr

/-- C6, amended, at `SW = 4`, `SA = 8`, size 6: from offset 16 the next
register is at 32, also with `int` operands; from the `int` offset -8 it is
at 8. -/
theorem C6_next_reg_off_witness :
    16 + ⌈((6 : Nat) : ℚ) / (LITEX_SUBREG_SIZE ⟨SubregSize.four, true⟩ : ℚ)⌉₊
        * LITEX_SUBREG_ALIGN ⟨SubregSize.four, true⟩ < 2 ^ 32 ∧
    _next_reg_off ⟨SubregSize.four, true⟩ 16 6
      = 16 + ⌈((6 : Nat) : ℚ) / (LITEX_SUBREG_SIZE ⟨SubregSize.four, true⟩ : ℚ)⌉₊
          * LITEX_SUBREG_ALIGN ⟨SubregSize.four, true⟩ ∧
    _next_reg_off ⟨SubregSize.four, true⟩ 16 6 = 32 ∧
    _next_reg_off_int ⟨SubregSize.four, true⟩ (-8) ((6 : Nat) : Int)
      = some (-8 + ⌈((6 : Nat) : ℚ) / (LITEX_SUBREG_SIZE ⟨SubregSize.four, true⟩ : ℚ)⌉
          * (LITEX_SUBREG_ALIGN ⟨SubregSize.four, true⟩ : Int)) ∧
    _next_reg_off_int ⟨SubregSize.four, true⟩ (-8) 6 = some 8 :=
  have hfit : 16 + ⌈((6 : Nat) : ℚ) / (LITEX_SUBREG_SIZE ⟨SubregSize.four, true⟩ : ℚ)⌉₊
      * LITEX_SUBREG_ALIGN ⟨SubregSize.four, true⟩ < 2 ^ 32 := by
    rw [ceil_div_eq 6 _ (by decide) (by decide)]
    decide
  have hc : ⌈((6 : Nat) : ℚ) / (LITEX_SUBREG_SIZE ⟨SubregSize.four, true⟩ : ℚ)⌉
      = (2 : Int) := by
    rw [int_ceil_div_eq ⟨SubregSize.four, true⟩ 6 (by decide)]
    decide
  ⟨hfit, (C6_next_reg_off ⟨SubregSize.four, true⟩ 16 6 (by decide) hfit).1, by decide,
    (C6_next_reg_off ⟨SubregSize.four, true⟩ 16 6 (by decide) hfit).2.1 (-8) (by decide)
      (by rw [hc]; decide) (by rw [hc]; decide),
    by decide⟩

end Litex
